import Mathlib

/-!
Verification of the general-ledger computation engine of the
indo-accounting application.

The persistent data model (accounts, transactions, journal entries,
fixed assets, recurring templates, report shapes) is translated from
`src/app/models.py`.  Monetary amounts there are exact `Decimal`
values with two decimal places; they are modelled here as integer
minor units (cents).  Calendar dates (`datetime.date` in the sources)
are modelled as year/month/day records ordered lexicographically.

The engine operations themselves (ledger poster, balance aggregator,
depreciation scheduler, recurrence engine, statement builder) do not
appear in the repository sources -- only their data schema does -- so
each operation below is modelled from the specification, as indicated
by its doc comment.
-/

namespace IndoLedger

/-- Account classification, translated from `AccountType` in
`src/app/models.py` (asset / liability / equity / revenue / expense). -/
inductive AccountType where
  | asset
  | liability
  | equity
  | revenue
  | expense
  deriving DecidableEq, Repr

/-- Transaction classification, translated from `TransactionType` in
`src/app/models.py`. -/
inductive TransactionType where
  | general_journal
  | adjustment_journal
  | sales
  | purchase
  | payment
  | receipt
  deriving DecidableEq, Repr

/-- Recurrence cadence, translated from `RecurrenceType` in
`src/app/models.py`. -/
inductive RecurrenceType where
  | daily
  | weekly
  | monthly
  | yearly
  deriving DecidableEq, Repr

/-- Depreciation method, translated from `AssetDepreciationMethod` in
`src/app/models.py`. -/
inductive AssetDepreciationMethod where
  | straight_line
  | declining_balance
  | units_of_production
  deriving DecidableEq, Repr

/-- Modelled from the spec: the Depreciation Scheduler state machine of
section 4.5 has states ACTIVE and FULLY_DEPRECIATED (terminal); the
source schema only stores an `is_active` flag on `FixedAsset`. -/
inductive AssetStatus where
  | active
  | fully_depreciated
  deriving DecidableEq, Repr

/-- Calendar date (year, month, day); the sources carry
`datetime.date` values. -/
structure Date where
  year : Int
  month : Int
  day : Int
  deriving DecidableEq, Repr

/-- Lexicographic order on dates, matching `datetime.date` comparison. -/
def dateLE (a b : Date) : Bool :=
  decide (a.year < b.year) ||
    (a.year == b.year &&
      (decide (a.month < b.month) ||
        (a.month == b.month && decide (a.day ≤ b.day))))

/-- Gregorian leap-year test. -/
def isLeap (y : Int) : Bool :=
  (y % 4 == 0 && y % 100 != 0) || y % 400 == 0

/-- Number of days of a month of the Gregorian calendar. -/
def daysInMonth (y m : Int) : Int :=
  if m = 1 ∨ m = 3 ∨ m = 5 ∨ m = 7 ∨ m = 8 ∨ m = 10 ∨ m = 12 then 31
  else if m = 4 ∨ m = 6 ∨ m = 9 ∨ m = 11 then 30
  else if m = 2 then (if isLeap y then 29 else 28)
  else 30

/-- The day before `d` (used for `balance(start - 1 day)` in the
period-balance computation of spec section 4.4). -/
def prevDay (d : Date) : Date :=
  if 1 < d.day then ⟨d.year, d.month, d.day - 1⟩
  else if 1 < d.month then ⟨d.year, d.month - 1, daysInMonth d.year (d.month - 1)⟩
  else ⟨d.year - 1, 12, 31⟩

/-- Clamp a date onto the valid Gregorian grid (month into 1..12, day
into 1..days-of-month).  On well-formed dates this is the identity. -/
def normDate (d : Date) : Date :=
  let m := if d.month < 1 then 1 else if 12 < d.month then 12 else d.month
  let dim := daysInMonth d.year m
  ⟨d.year, m, if d.day < 1 then 1 else if dim < d.day then dim else d.day⟩

/-- A well-formed Gregorian date. -/
def ValidDate (d : Date) : Prop :=
  1 ≤ d.month ∧ d.month ≤ 12 ∧ 1 ≤ d.day ∧ d.day ≤ daysInMonth d.year d.month

instance (d : Date) : Decidable (ValidDate d) := by
  unfold ValidDate; infer_instance

/-- Calendar-aware next day (rolls over month and year ends). -/
def addDay (d : Date) : Date :=
  if d.day < daysInMonth d.year d.month then ⟨d.year, d.month, d.day + 1⟩
  else if d.month < 12 then ⟨d.year, d.month + 1, 1⟩
  else ⟨d.year + 1, 1, 1⟩

/-- Calendar-aware next month; an end-of-month day clamps to the last
valid day of the next month (spec section 4.6). -/
def nextMonth (d : Date) : Date :=
  if d.month < 12 then
    let dim := daysInMonth d.year (d.month + 1)
    ⟨d.year, d.month + 1, if dim < d.day then dim else d.day⟩
  else
    ⟨d.year + 1, 1, if (31 : Int) < d.day then 31 else d.day⟩

/-- Calendar-aware next year; Feb 29 clamps to Feb 28 off leap years. -/
def nextYear (d : Date) : Date :=
  let dim := daysInMonth (d.year + 1) d.month
  ⟨d.year + 1, d.month, if dim < d.day then dim else d.day⟩

/-- Modelled from the spec: section 4.6 schedule advance -- daily +1d,
weekly +7d, monthly/yearly calendar-aware with end-of-month clamping.
The stored date is normalized onto the calendar grid first. -/
def advanceCadence (c : RecurrenceType) (d : Date) : Date :=
  match c with
  | .daily => addDay (normDate d)
  | .weekly => addDay (addDay (addDay (addDay (addDay (addDay (addDay (normDate d)))))))
  | .monthly => nextMonth (normDate d)
  | .yearly => nextYear (normDate d)

/-- Linearization of valid dates used as a termination measure for the
recurrence catch-up loop (strictly monotone on valid dates). -/
def rataI (d : Date) : Int :=
  400 * (12 * d.year + (d.month - 1)) + d.day

/-- Round-half-up division of an exact fixed-point amount, the single
documented rounding rule of Money (spec section 4.1). -/
def rhuDiv (n d : Int) : Int :=
  Int.fdiv (2 * n + d) (2 * d)

/-- Scale-multiply by a rate held at four decimal places, rounding
half-up back to the amount scale (spec sections 3 and 4.1). -/
def mulRate (a r : Int) : Int :=
  rhuDiv (a * r) 10000

/-- Chart-of-accounts row, translated from `Account` in
`src/app/models.py` (code, name, `account_type`, optional `parent_id`,
`is_active`). -/
structure Account where
  id : Nat
  code : String
  name : String
  account_type : AccountType
  parent_id : Option Nat
  is_active : Bool
  deriving DecidableEq, Repr

/-- Journal-entry row, translated from `JournalEntry` in
`src/app/models.py`: one account reference and a debit and a credit
amount (two-decimal `Decimal`, modelled as cents). -/
structure JournalEntry where
  transaction_id : Nat
  account_id : Nat
  debit_amount : Int
  credit_amount : Int
  description : Option String
  deriving DecidableEq, Repr

/-- Transaction row, translated from `Transaction` in
`src/app/models.py`, with its journal entries attached via the
`journal_entries` relationship.  The source stores the unique
`transaction_number` as a string; the spec requires it to be a unique,
monotonically increasing number, so it is modelled as a natural. -/
structure Transaction where
  transaction_number : Nat
  transaction_date : Date
  transaction_type : TransactionType
  description : String
  reference_number : Option String
  entries : List JournalEntry
  deriving DecidableEq, Repr

/-- Journal-entry draft, translated from `JournalEntryCreate` in
`src/app/models.py`. -/
structure JournalEntryCreate where
  account_id : Nat
  debit_amount : Int
  credit_amount : Int
  description : Option String
  deriving DecidableEq, Repr

/-- Transaction draft submitted to the ledger poster: the fields of
`TransactionCreate` in `src/app/models.py` together with its
`JournalEntryCreate` lines. -/
structure TransactionDraft where
  transaction_date : Date
  transaction_type : TransactionType
  description : String
  reference_number : Option String
  entries : List JournalEntryCreate
  deriving DecidableEq, Repr

/-- The account ids present in a chart. -/
def ids (accs : List Account) : List Nat :=
  accs.map Account.id

/-- Look an account up by id (first match). -/
def findAcct (accs : List Account) (x : Nat) : Option Account :=
  accs.find? (fun a => a.id == x)

/-- The parent id of the account with id `x`, when both exist. -/
def parentOf (accs : List Account) (x : Nat) : Option Nat :=
  (findAcct accs x).bind Account.parent_id

/-- `k`-fold iteration of the parent link. -/
def iterP (accs : List Account) : Nat → Nat → Option Nat
  | 0, x => some x
  | k + 1, x =>
    match parentOf accs x with
    | none => none
    | some p => iterP accs k p

/-- The ancestor-or-self chain of `x`, self first, cut off at `fuel`
steps. -/
def ancChain (accs : List Account) : Nat → Nat → List Nat
  | 0, _ => []
  | n + 1, x =>
    x :: (match parentOf accs x with
          | none => []
          | some p => ancChain accs n p)

/-- Fuel that always suffices to exhaust an acyclic parent chain. -/
def chartFuel (accs : List Account) : Nat :=
  accs.length + 2

/-- The full ancestor-or-self chain of `x` (spec section 4.2,
`ancestors`, plus the account itself). -/
def anc (accs : List Account) (x : Nat) : List Nat :=
  ancChain accs (chartFuel accs) x

/-- The parent chain of the chart is acyclic: no id ever returns to
itself by following parent links (spec sections 3 and 4.2). -/
def Acyclic (accs : List Account) : Prop :=
  ∀ x k, 1 ≤ k → iterP accs k x ≠ some x

/-- Executable acyclicity check over the bounded ancestor chains. -/
def acyclicCheck (accs : List Account) : Bool :=
  accs.all (fun a =>
    match a.parent_id with
    | none => true
    | some p => !((anc accs p).contains a.id))

/-- The direct children of account id `pid` in the chart. -/
def childrenOf (accs : List Account) (pid : Nat) : List Account :=
  accs.filter (fun c => c.parent_id == some pid)


theorem daysInMonth_bounds (y m : Int) :
    28 ≤ daysInMonth y m ∧ daysInMonth y m ≤ 31 := by
  unfold daysInMonth
  repeat' split
  all_goals omega

theorem daysInMonth_jan (y : Int) : daysInMonth y 1 = 31 := by
  simp [daysInMonth]

theorem valid_normDate (d : Date) : ValidDate (normDate d) := by
  rcases d with ⟨y, m, dd⟩
  have h1 := daysInMonth_bounds y 1
  have h2 := daysInMonth_bounds y 12
  have h3 := daysInMonth_bounds y m
  simp only [normDate, ValidDate]
  repeat' split
  all_goals omega

theorem normDate_eq_of_valid {d : Date} (h : ValidDate d) : normDate d = d := by
  rcases d with ⟨y, m, dd⟩
  obtain ⟨h1, h2, h3, h4⟩ := h
  simp only [normDate, Date.mk.injEq]
  repeat' split
  all_goals simp_all
  all_goals omega

theorem addDay_valid {d : Date} (h : ValidDate d) : ValidDate (addDay d) := by
  rcases d with ⟨y, m, dd⟩
  obtain ⟨h1, h2, h3, h4⟩ := h
  have hb2 := daysInMonth_bounds y (m + 1)
  have hb3 := daysInMonth_jan (y + 1)
  simp only [addDay, ValidDate]
  repeat' split
  all_goals simp_all
  all_goals omega

theorem rataI_lt_addDay {d : Date} (h : ValidDate d) : rataI d < rataI (addDay d) := by
  rcases d with ⟨y, m, dd⟩
  obtain ⟨h1, h2, h3, h4⟩ := h
  have hb := daysInMonth_bounds y m
  simp only [addDay, rataI]
  repeat' split
  all_goals simp_all
  all_goals omega

theorem nextMonth_valid {d : Date} (h : ValidDate d) : ValidDate (nextMonth d) := by
  rcases d with ⟨y, m, dd⟩
  obtain ⟨h1, h2, h3, h4⟩ := h
  have hb2 := daysInMonth_bounds y (m + 1)
  have hb3 := daysInMonth_jan (y + 1)
  simp only [nextMonth, ValidDate]
  repeat' split
  all_goals simp_all
  all_goals omega

theorem rataI_lt_nextMonth {d : Date} (h : ValidDate d) :
    rataI d < rataI (nextMonth d) := by
  rcases d with ⟨y, m, dd⟩
  obtain ⟨h1, h2, h3, h4⟩ := h
  have hb := daysInMonth_bounds y m
  have hb2 := daysInMonth_bounds y (m + 1)
  simp only [nextMonth, rataI]
  repeat' split
  all_goals simp_all
  all_goals omega

theorem nextYear_valid {d : Date} (h : ValidDate d) : ValidDate (nextYear d) := by
  rcases d with ⟨y, m, dd⟩
  obtain ⟨h1, h2, h3, h4⟩ := h
  have hb2 := daysInMonth_bounds (y + 1) m
  simp only [nextYear, ValidDate]
  repeat' split
  all_goals simp_all
  all_goals omega

theorem rataI_lt_nextYear {d : Date} (h : ValidDate d) : rataI d < rataI (nextYear d) := by
  rcases d with ⟨y, m, dd⟩
  obtain ⟨h1, h2, h3, h4⟩ := h
  have hb := daysInMonth_bounds y m
  have hb2 := daysInMonth_bounds (y + 1) m
  simp only [nextYear, rataI]
  repeat' split
  all_goals simp_all
  all_goals omega

theorem advanceCadence_valid (c : RecurrenceType) (d : Date) :
    ValidDate (advanceCadence c d) := by
  have h0 := valid_normDate d
  cases c with
  | daily => exact addDay_valid h0
  | weekly =>
    exact addDay_valid (addDay_valid (addDay_valid (addDay_valid (addDay_valid
      (addDay_valid (addDay_valid h0))))))
  | monthly => exact nextMonth_valid h0
  | yearly => exact nextYear_valid h0

theorem rataI_lt_advanceCadence (c : RecurrenceType) (d : Date) :
    rataI (normDate d) < rataI (advanceCadence c d) := by
  have h0 := valid_normDate d
  cases c with
  | daily => exact rataI_lt_addDay h0
  | weekly =>
    have v1 := addDay_valid h0
    have v2 := addDay_valid v1
    have v3 := addDay_valid v2
    have v4 := addDay_valid v3
    have v5 := addDay_valid v4
    have v6 := addDay_valid v5
    calc rataI (normDate d) < rataI (addDay (normDate d)) := rataI_lt_addDay h0
      _ < rataI (addDay (addDay (normDate d))) := rataI_lt_addDay v1
      _ < _ := rataI_lt_addDay v2
      _ < _ := rataI_lt_addDay v3
      _ < _ := rataI_lt_addDay v4
      _ < _ := rataI_lt_addDay v5
      _ < _ := rataI_lt_addDay v6
  | monthly => exact rataI_lt_nextMonth h0
  | yearly => exact rataI_lt_nextYear h0

theorem rataI_mono_of_valid {a b : Date} (ha : ValidDate a) (hb : ValidDate b)
    (h : dateLE a b = true) : rataI a ≤ rataI b := by
  rcases a with ⟨y1, m1, d1⟩
  rcases b with ⟨y2, m2, d2⟩
  obtain ⟨a1, a2, a3, a4⟩ := ha
  obtain ⟨b1, b2, b3, b4⟩ := hb
  have hba := daysInMonth_bounds y1 m1
  have hbb := daysInMonth_bounds y2 m2
  simp only [dateLE, Bool.or_eq_true, Bool.and_eq_true, decide_eq_true_eq,
    beq_iff_eq] at h
  simp only [rataI] at *
  omega

/-- Posting failures of the validation pipeline of spec section 4.3.
The first step (fewer than two entries) carries no name in the spec
error taxonomy and is called `tooFewEntries` here. -/
inductive PostingError where
  | tooFewEntries
  | unknownAccount
  | inactiveAccount
  | malformedEntry
  | unbalancedTransaction
  deriving DecidableEq, Repr

/-- Modelled from the spec: step 2 of the posting pipeline (section
4.3) -- reject the first entry referencing an unknown account with
`UnknownAccount`, or an inactive one with `InactiveAccount`. -/
def checkAccounts (accs : List Account) : List JournalEntryCreate → Option PostingError
  | [] => none
  | e :: es =>
    match findAcct accs e.account_id with
    | none => some .unknownAccount
    | some a => if a.is_active then checkAccounts accs es else some .inactiveAccount

/-- An entry with both sides non-zero, or both sides zero, violates the
balanced single-sided entry shape (spec sections 3 and 4.3 step 3). -/
def isMalformed (e : JournalEntryCreate) : Bool :=
  (decide (e.debit_amount ≠ 0) && decide (e.credit_amount ≠ 0)) ||
    (e.debit_amount == 0 && e.credit_amount == 0)

/-- Modelled from the spec: step 3 of the posting pipeline -- reject
the first malformed entry with `MalformedEntry`. -/
def checkShapes : List JournalEntryCreate → Option PostingError
  | [] => none
  | e :: es => if isMalformed e then some .malformedEntry else checkShapes es

/-- Total of the debit side of a draft at full precision. -/
def sumDebits (es : List JournalEntryCreate) : Int :=
  (es.map JournalEntryCreate.debit_amount).sum

/-- Total of the credit side of a draft at full precision. -/
def sumCredits (es : List JournalEntryCreate) : Int :=
  (es.map JournalEntryCreate.credit_amount).sum

/-- Modelled from the spec: the Ledger Poster validation pipeline of
section 4.3, short-circuiting on the first failure: fewer than two
entries, then unknown/inactive accounts, then malformed entries, then
the exact debit/credit balance comparison. -/
def validateDraft (accs : List Account) (d : TransactionDraft) : Option PostingError :=
  if d.entries.length < 2 then some .tooFewEntries
  else
    match checkAccounts accs d.entries with
    | some e => some e
    | none =>
      match checkShapes d.entries with
      | some e => some e
      | none =>
        if sumDebits d.entries = sumCredits d.entries then none
        else some .unbalancedTransaction

/-- The ledger as seen by the engine: the chart of accounts, the
committed transactions in commit order, and the next transaction
number to assign. -/
structure LedgerState where
  accounts : List Account
  transactions : List Transaction
  nextNumber : Nat
  deriving DecidableEq, Repr

/-- Turn a draft line into a committed journal entry of transaction
number `n`. -/
def mkEntry (n : Nat) (e : JournalEntryCreate) : JournalEntry :=
  ⟨n, e.account_id, e.debit_amount, e.credit_amount, e.description⟩

/-- The committed transaction built from a draft, carrying the next
transaction number of the ledger. -/
def commitTx (s : LedgerState) (d : TransactionDraft) : Transaction :=
  ⟨s.nextNumber, d.transaction_date, d.transaction_type, d.description,
    d.reference_number, d.entries.map (mkEntry s.nextNumber)⟩

/-- Modelled from the spec: `post(transaction_draft)` of section 4.3.
Validation errors are returned synchronously with the ledger state
unchanged; on success the transaction is committed atomically with the
next monotonically increasing transaction number. -/
def postS (s : LedgerState) (d : TransactionDraft) :
    LedgerState × Except PostingError Transaction :=
  match validateDraft s.accounts d with
  | some e => (s, .error e)
  | none =>
    let tx := commitTx s d
    ({ s with transactions := s.transactions ++ [tx], nextNumber := s.nextNumber + 1 },
      .ok tx)

/-- Ledger states reachable from an initial empty ledger.  Posting is
the only operation that commits transactions; the depreciation
scheduler and the recurrence engine feed the poster exactly like any
other caller (spec section 2), and chart maintenance may replace the
account list arbitrarily without touching committed transactions. -/
inductive Reachable : LedgerState → Prop where
  | init (accs : List Account) : Reachable ⟨accs, [], 0⟩
  | postTx {s s2 : LedgerState} {d : TransactionDraft} {tx : Transaction} :
      Reachable s → postS s d = (s2, .ok tx) → Reachable s2
  | setAccounts {s : LedgerState} (accs : List Account) :
      Reachable s → Reachable ⟨accs, s.transactions, s.nextNumber⟩

/-- The signed effect of a journal entry, debit minus credit (spec
section 3, JournalEntry). -/
def entryEffect (e : JournalEntry) : Int :=
  e.debit_amount - e.credit_amount

/-- The signed effect of a transaction on one account. -/
def txEffect (aid : Nat) (tx : Transaction) : Int :=
  ((tx.entries.filter (fun e => e.account_id == aid)).map entryEffect).sum

/-- Modelled from the spec: `balance(account, as_of_date, rollup=false)`
of section 4.4 -- the sum of the account's own entry effects dated on or
before the date. -/
def ownBalance (txs : List Transaction) (aid : Nat) (d : Date) : Int :=
  ((txs.filter (fun tx => dateLE tx.transaction_date d)).map (txEffect aid)).sum

/-- The accounts of the subtree rooted at id `aid`: those whose
ancestor-or-self chain passes through `aid`. -/
def subtreeAccounts (accs : List Account) (aid : Nat) : List Account :=
  accs.filter (fun b => decide (aid ∈ anc accs b.id))

/-- Modelled from the spec: `balance(account, as_of_date, rollup=true)`
of sections 3 and 4.4 -- the account's own balance including all
descendant accounts' balances. -/
def rollupBalance (accs : List Account) (txs : List Transaction) (aid : Nat)
    (d : Date) : Int :=
  ((subtreeAccounts accs aid).map (fun b => ownBalance txs b.id d)).sum

/-- Modelled from the spec: `balance(account, as_of_date, rollup)` of
section 4.4. -/
def balance (accs : List Account) (txs : List Transaction) (aid : Nat) (d : Date)
    (rollup : Bool) : Int :=
  if rollup then rollupBalance accs txs aid d else ownBalance txs aid d

/-- The sum of an account's own entry effects dated within a closed
date range. -/
def flowTotal (txs : List Transaction) (aid : Nat) (s e : Date) : Int :=
  ((txs.filter (fun tx => dateLE s tx.transaction_date && dateLE tx.transaction_date e)).map
    (txEffect aid)).sum

/-- Modelled from the spec: `period_balance(account, start, end)` of
section 4.4 -- the cumulative difference `balance(end) - balance(start
- 1 day)` for balance-sheet accounts, and the in-range flow sum for
revenue/expense accounts. -/
def periodBalance (txs : List Transaction) (a : Account) (s e : Date) : Int :=
  match a.account_type with
  | .asset | .liability | .equity =>
    ownBalance txs a.id e - ownBalance txs a.id (prevDay s)
  | .revenue | .expense => flowTotal txs a.id s e

/-- The sum of the own balances of all accounts of one type. -/
def typeOwnTotal (accs : List Account) (txs : List Transaction) (ty : AccountType)
    (d : Date) : Int :=
  ((accs.filter (fun a => a.account_type == ty)).map
    (fun a => ownBalance txs a.id d)).sum

/-- Total assets at a date (debit-positive convention). -/
def totalAssets (accs : List Account) (txs : List Transaction) (d : Date) : Int :=
  typeOwnTotal accs txs .asset d

/-- Total liabilities at a date (credit-positive convention). -/
def totalLiabilities (accs : List Account) (txs : List Transaction) (d : Date) : Int :=
  - typeOwnTotal accs txs .liability d

/-- Net income accumulated up to a date: total revenue minus total
expenses (spec section 4.7). -/
def netIncomeAsOf (accs : List Account) (txs : List Transaction) (d : Date) : Int :=
  - typeOwnTotal accs txs .revenue d - typeOwnTotal accs txs .expense d

/-- Total equity at a date (credit-positive), including the net income
accumulated to date -- the closing convention a balance sheet needs for
the accounting identity to hold. -/
def totalEquity (accs : List Account) (txs : List Transaction) (d : Date) : Int :=
  - typeOwnTotal accs txs .equity d + netIncomeAsOf accs txs d

/-- Balance-sheet report value, translated from `BalanceSheetData` in
`src/app/models.py` (per-type balance maps keyed by account name, the
two totals and the report date). -/
structure BalanceSheetData where
  assets : List (String × Int)
  liabilities : List (String × Int)
  equity : List (String × Int)
  total_assets : Int
  total_liabilities_equity : Int
  report_date : Date
  deriving DecidableEq, Repr

/-- Statement-builder failure: the reconciliation error of spec
section 4.7. -/
inductive StatementError where
  | integrityViolation
  deriving DecidableEq, Repr

/-- The per-account balance lines of one account type. -/
def typeLines (accs : List Account) (txs : List Transaction) (ty : AccountType)
    (d : Date) : List (String × Int) :=
  (accs.filter (fun a => a.account_type == ty)).map
    (fun a => (a.name, ownBalance txs a.id d))

/-- Modelled from the spec: `buildBalanceSheet(date)` of section 4.7.
Balances are grouped by account type; the report is returned only when
`total_assets == total_liabilities + total_equity` holds exactly,
otherwise the `IntegrityViolation` error is raised. -/
def buildBalanceSheet (accs : List Account) (txs : List Transaction) (d : Date) :
    Except StatementError BalanceSheetData :=
  let ta := totalAssets accs txs d
  let tle := totalLiabilities accs txs d + totalEquity accs txs d
  if ta = tle then
    .ok ⟨typeLines accs txs .asset d, typeLines accs txs .liability d,
      typeLines accs txs .equity d, ta, tle, d⟩
  else .error .integrityViolation

/-- Depreciation log row, translated from `DepreciationEntry` in
`src/app/models.py` (asset reference, period date, amount). -/
structure DepreciationEntry where
  asset_id : Nat
  period_date : Date
  depreciation_amount : Int
  deriving DecidableEq, Repr

/-- Fixed-asset row, translated from `FixedAsset` in
`src/app/models.py`, with its `depreciation_entries` relationship
attached.  The ACTIVE / FULLY_DEPRECIATED state machine of spec
section 4.5 replaces the source's plain `is_active` flag. -/
structure FixedAsset where
  id : Nat
  name : String
  purchase_date : Date
  purchase_cost : Int
  useful_life_years : Nat
  depreciation_method : AssetDepreciationMethod
  salvage_value : Int
  accumulated_depreciation : Int
  status : AssetStatus
  entries : List DepreciationEntry
  deriving DecidableEq, Repr

/-- A freshly registered fixed asset: the source schema defaults
`accumulated_depreciation` to zero and starts with an empty
depreciation log. -/
def mkFixedAsset (id : Nat) (name : String) (purchase_date : Date)
    (purchase_cost : Int) (useful_life_years : Nat)
    (depreciation_method : AssetDepreciationMethod) (salvage_value : Int) :
    FixedAsset :=
  ⟨id, name, purchase_date, purchase_cost, useful_life_years, depreciation_method,
    salvage_value, 0, .active, []⟩

/-- Per-period input of one depreciation tick: the period date plus the
configuration the methods of spec section 4.5 need (declining-balance
rate at four decimal places, units produced this period and total
estimated units; none of these live in the source schema). -/
structure DepTickInput where
  period_date : Date
  rate : Int
  units_this_period : Int
  total_estimated_units : Int
  deriving DecidableEq, Repr

/-- Modelled from the spec: the per-period depreciation amount of
section 4.5 -- straight line allocated monthly, declining balance on
the un-depreciated cost times the configured rate, units of production
proportional to the period's units. -/
def rawDepreciation (a : FixedAsset) (inp : DepTickInput) : Int :=
  match a.depreciation_method with
  | .straight_line =>
    rhuDiv (a.purchase_cost - a.salvage_value) (12 * (a.useful_life_years : Int))
  | .declining_balance => mulRate (a.purchase_cost - a.accumulated_depreciation) inp.rate
  | .units_of_production =>
    rhuDiv ((a.purchase_cost - a.salvage_value) * inp.units_this_period)
      inp.total_estimated_units

/-- Modelled from the spec: one scheduled depreciation tick of section
4.5.  A fully depreciated asset generates nothing; an amount that
would push `accumulated_depreciation` to or past
`purchase_cost - salvage_value` is clamped to the remaining
depreciable balance and the asset transitions to FULLY_DEPRECIATED. -/
def tickAsset (a : FixedAsset) (inp : DepTickInput) :
    FixedAsset × Option DepreciationEntry :=
  if a.status = .fully_depreciated then (a, none)
  else
    let raw := rawDepreciation a inp
    let remaining := a.purchase_cost - a.salvage_value - a.accumulated_depreciation
    if remaining ≤ raw then
      let e : DepreciationEntry := ⟨a.id, inp.period_date, remaining⟩
      ({ a with
          accumulated_depreciation := a.accumulated_depreciation + remaining
          status := .fully_depreciated
          entries := a.entries ++ [e] }, some e)
    else
      let e : DepreciationEntry := ⟨a.id, inp.period_date, raw⟩
      ({ a with
          accumulated_depreciation := a.accumulated_depreciation + raw
          entries := a.entries ++ [e] }, some e)

/-- A sequence of scheduled depreciation ticks applied in order. -/
def applyTicks (a : FixedAsset) : List DepTickInput → FixedAsset
  | [] => a
  | inp :: rest => applyTicks (tickAsset a inp).1 rest

/-- Recurring-transaction template, translated from
`RecurringTransaction` in `src/app/models.py`. -/
structure RecurringTransaction where
  id : Nat
  name : String
  recurrence_type : RecurrenceType
  start_date : Date
  end_date : Option Date
  next_execution_date : Date
  amount : Int
  account_debit_id : Nat
  account_credit_id : Nat
  is_active : Bool
  deriving DecidableEq, Repr

/-- Modelled from the spec: a template is due (section 4.6) when it is
active, `next_execution_date <= today`, and its `end_date` is unset or
not yet passed by the scheduled date.  Dates are normalized onto the
calendar grid before comparison. -/
def canFire (t : RecurringTransaction) (today : Date) : Bool :=
  t.is_active &&
    dateLE (normDate t.next_execution_date) (normDate today) &&
    (match t.end_date with
     | none => true
     | some ed => dateLE (normDate t.next_execution_date) (normDate ed))

/-- The balanced draft a due template generates: debit the template's
debit account and credit its credit account with the template amount,
dated at the scheduled date (spec section 4.6). -/
def mkRecurringDraft (t : RecurringTransaction) : TransactionDraft :=
  ⟨t.next_execution_date, .general_journal, t.name, none,
    [⟨t.account_debit_id, t.amount, 0, none⟩, ⟨t.account_credit_id, 0, t.amount, none⟩]⟩

/-- Advance a template's schedule by one cadence step. -/
def advanceTemplate (t : RecurringTransaction) : RecurringTransaction :=
  { t with next_execution_date := advanceCadence t.recurrence_type t.next_execution_date }

/-- Modelled from the spec: processing of a single template inside
`tick(today)` (section 4.6).  While the template is due, a draft is
generated and posted; a successful post advances
`next_execution_date` by the cadence and continues catching up, while
a posting failure is reported and leaves the schedule un-advanced so
the next tick retries. -/
def fireLoop (today : Date) (s : LedgerState) (t : RecurringTransaction) :
    LedgerState × RecurringTransaction × List Transaction × List PostingError :=
  if h : canFire t today then
    match postS s (mkRecurringDraft t) with
    | (s1, .error e) => (s1, t, [], [e])
    | (s1, .ok tx) =>
      let r := fireLoop today s1 (advanceTemplate t)
      (r.1, r.2.1, tx :: r.2.2.1, r.2.2.2)
  else (s, t, [], [])
termination_by
  (rataI (normDate today) + 1 - rataI (normDate t.next_execution_date)).toNat
decreasing_by
  have hlt := rataI_lt_advanceCadence t.recurrence_type t.next_execution_date
  have hle : rataI (normDate t.next_execution_date) ≤ rataI (normDate today) := by
    apply rataI_mono_of_valid (valid_normDate _) (valid_normDate _)
    simp only [canFire, Bool.and_eq_true] at h
    exact h.1.2
  simp only [advanceTemplate]
  rw [normDate_eq_of_valid (advanceCadence_valid _ _)]
  omega

/-- Modelled from the spec: one recurrence tick over a list of
templates, returning the final ledger state and, per template, the
advanced template, the transactions it posted and the reported
failures (section 4.6). -/
def processTemplates (today : Date) (s : LedgerState) :
    List RecurringTransaction →
      LedgerState × List (RecurringTransaction × List Transaction × List PostingError)
  | [] => (s, [])
  | t :: ts =>
    let r := fireLoop today s t
    let rest := processTemplates today r.1 ts
    (rest.1, (r.2.1, r.2.2.1, r.2.2.2) :: rest.2)

/-- Chart-maintenance failures of the Chart-of-Accounts Index (spec
sections 4.2 and 7); duplicate ids violate the unique account code /
primary key of the source schema. -/
inductive ChartError where
  | duplicateAccount
  | unknownAccount
  | cyclicHierarchy
  deriving DecidableEq, Repr

/-- The bounded parent-chain walk used for cycle detection: does the
ancestor chain of the parent of `x` come back to `x`. -/
def cycleAt (accs : List Account) (x : Nat) : Bool :=
  match parentOf accs x with
  | none => false
  | some p => (anc accs p).contains x

/-- Modelled from the spec: insertion into the Chart-of-Accounts Index
(section 4.2); duplicate ids and unknown parents are rejected, and an
insertion whose parent chain would come back to the new account is
rejected with `CyclicHierarchy`. -/
def insertAccount (accs : List Account) (a : Account) :
    Except ChartError (List Account) :=
  if (ids accs).contains a.id then .error .duplicateAccount
  else
    match a.parent_id with
    | none => .ok (accs ++ [a])
    | some p =>
      if (ids accs).contains p then
        let accs2 := accs ++ [a]
        if cycleAt accs2 a.id then .error .cyclicHierarchy else .ok accs2
      else .error .unknownAccount

/-- Rewrite the parent link of account `aid`. -/
def setParent (accs : List Account) (aid : Nat) (p : Option Nat) : List Account :=
  accs.map (fun b => if b.id = aid then { b with parent_id := p } else b)

/-- Modelled from the spec: reparenting in the Chart-of-Accounts Index
(section 4.2).  Moving `aid` under a new parent whose ancestor-or-self
chain contains `aid` would create a cycle and is rejected with
`CyclicHierarchy`, without mutating state. -/
def reparentAccount (accs : List Account) (aid : Nat) (newParent : Option Nat) :
    Except ChartError (List Account) :=
  match findAcct accs aid with
  | none => .error .unknownAccount
  | some _ =>
    match newParent with
    | none => .ok (setParent accs aid none)
    | some p =>
      if (ids accs).contains p then
        if (anc accs p).contains aid then .error .cyclicHierarchy
        else .ok (setParent accs aid (some p))
      else .error .unknownAccount

/-- State-passing form of insertion: a rejected insertion returns the
index unchanged next to the error. -/
def chartInsert (accs : List Account) (a : Account) :
    List Account × Option ChartError :=
  match insertAccount accs a with
  | .ok accs2 => (accs2, none)
  | .error e => (accs, some e)

/-- State-passing form of reparenting: a rejected reparenting returns
the index unchanged next to the error. -/
def chartReparent (accs : List Account) (aid : Nat) (newParent : Option Nat) :
    List Account × Option ChartError :=
  match reparentAccount accs aid newParent with
  | .ok accs2 => (accs2, none)
  | .error e => (accs, some e)

/-- Chart-of-accounts states reachable through the index operations,
starting from the empty chart. -/
inductive ReachableChart : List Account → Prop where
  | empty : ReachableChart []
  | insert {accs accs2 : List Account} {a : Account} :
      ReachableChart accs → insertAccount accs a = .ok accs2 → ReachableChart accs2
  | reparent {accs accs2 : List Account} {aid : Nat} {p : Option Nat} :
      ReachableChart accs → reparentAccount accs aid p = .ok accs2 →
      ReachableChart accs2

theorem tickAsset_const (a : FixedAsset) (inp : DepTickInput) :
    (tickAsset a inp).1.purchase_cost = a.purchase_cost ∧
    (tickAsset a inp).1.salvage_value = a.salvage_value := by
  unfold tickAsset
  dsimp only
  split_ifs
  all_goals simp

theorem tickAsset_accum_le (a : FixedAsset) (inp : DepTickInput)
    (h : a.accumulated_depreciation ≤ a.purchase_cost - a.salvage_value) :
    (tickAsset a inp).1.accumulated_depreciation ≤
      (tickAsset a inp).1.purchase_cost - (tickAsset a inp).1.salvage_value := by
  unfold tickAsset
  dsimp only
  split_ifs with h1 h2
  · simpa using h
  · simp
  · simp
    omega

theorem tickAsset_fully (a : FixedAsset) (inp : DepTickInput)
    (h : a.status = .fully_depreciated) : tickAsset a inp = (a, none) := by
  simp [tickAsset, h]

theorem applyTicks_fully (a : FixedAsset) (inputs : List DepTickInput)
    (h : a.status = .fully_depreciated) : applyTicks a inputs = a := by
  induction inputs with
  | nil => rfl
  | cons inp rest ih =>
    show applyTicks (tickAsset a inp).1 rest = a
    rw [tickAsset_fully a inp h]
    exact ih

theorem applyTicks_invariant (a : FixedAsset) (inputs : List DepTickInput)
    (h : a.accumulated_depreciation ≤ a.purchase_cost - a.salvage_value) :
    (applyTicks a inputs).accumulated_depreciation ≤
        (applyTicks a inputs).purchase_cost - (applyTicks a inputs).salvage_value ∧
    (applyTicks a inputs).purchase_cost = a.purchase_cost ∧
    (applyTicks a inputs).salvage_value = a.salvage_value := by
  induction inputs generalizing a with
  | nil => exact ⟨h, rfl, rfl⟩
  | cons inp rest ih =>
    have hc := tickAsset_const a inp
    have hs := tickAsset_accum_le a inp h
    have hrec := ih (tickAsset a inp).1 (by omega)
    rw [show applyTicks a (inp :: rest) = applyTicks (tickAsset a inp).1 rest from rfl]
    omega

/-- C5: under every sequence of depreciation ticks,
`accumulated_depreciation` never exceeds
`purchase_cost - salvage_value`; a tick whose computed amount would
exceed that bound posts the clamped remaining depreciable balance and
moves the asset to FULLY_DEPRECIATED; once FULLY_DEPRECIATED, no tick
generates another depreciation entry or changes the asset. -/
theorem depreciation_never_exceeds_base (a : FixedAsset) (inputs : List DepTickInput)
    (hinv : a.accumulated_depreciation ≤ a.purchase_cost - a.salvage_value) :
    (applyTicks a inputs).accumulated_depreciation ≤
        a.purchase_cost - a.salvage_value ∧
    (a.status = .fully_depreciated →
      applyTicks a inputs = a ∧ ∀ inp : DepTickInput, (tickAsset a inp).2 = none) ∧
    (∀ inp : DepTickInput, a.status = .active →
      a.purchase_cost - a.salvage_value - a.accumulated_depreciation <
          rawDepreciation a inp →
      (tickAsset a inp).2 = some ⟨a.id, inp.period_date,
          a.purchase_cost - a.salvage_value - a.accumulated_depreciation⟩ ∧
      (tickAsset a inp).1.status = .fully_depreciated ∧
      (tickAsset a inp).1.accumulated_depreciation =
          a.purchase_cost - a.salvage_value) := by
  refine ⟨?_, ?_, ?_⟩
  · have := applyTicks_invariant a inputs hinv
    omega
  · intro h
    refine ⟨applyTicks_fully a inputs h, fun inp => ?_⟩
    rw [tickAsset_fully a inp h]
  · intro inp hact hexceed
    have hne : ¬ a.status = .fully_depreciated := by rw [hact]; simp
    have hstep : tickAsset a inp =
        ({ a with
            accumulated_depreciation := a.accumulated_depreciation +
              (a.purchase_cost - a.salvage_value - a.accumulated_depreciation)
            status := .fully_depreciated
            entries := a.entries ++ [⟨a.id, inp.period_date,
              a.purchase_cost - a.salvage_value - a.accumulated_depreciation⟩] },
          some ⟨a.id, inp.period_date,
            a.purchase_cost - a.salvage_value - a.accumulated_depreciation⟩) := by
      unfold tickAsset
      dsimp only
      rw [if_neg hne, if_pos (by omega)]
    rw [hstep]
    refine ⟨rfl, rfl, by simp⟩

/-- Witness for C5 at a concrete straight-line asset: cost 120000.00,
salvage 0, five-year life, one monthly tick of 2000.00. -/
theorem depreciation_never_exceeds_base_witness :
    (mkFixedAsset 1 "Mesin" ⟨2024, 1, 1⟩ 12000000 5 .straight_line 0).accumulated_depreciation ≤
        (mkFixedAsset 1 "Mesin" ⟨2024, 1, 1⟩ 12000000 5 .straight_line 0).purchase_cost -
        (mkFixedAsset 1 "Mesin" ⟨2024, 1, 1⟩ 12000000 5 .straight_line 0).salvage_value ∧
    (applyTicks (mkFixedAsset 1 "Mesin" ⟨2024, 1, 1⟩ 12000000 5 .straight_line 0)
        [⟨⟨2024, 1, 31⟩, 0, 0, 0⟩, ⟨⟨2024, 2, 29⟩, 0, 0, 0⟩]).accumulated_depreciation ≤
      12000000 - 0 :=
  ⟨by decide,
    (depreciation_never_exceeds_base
      (mkFixedAsset 1 "Mesin" ⟨2024, 1, 1⟩ 12000000 5 .straight_line 0)
      [⟨⟨2024, 1, 31⟩, 0, 0, 0⟩, ⟨⟨2024, 2, 29⟩, 0, 0, 0⟩] (by decide)).1⟩

theorem tickAsset_log (a : FixedAsset) (inp : DepTickInput)
    (h : a.accumulated_depreciation =
      (a.entries.map DepreciationEntry.depreciation_amount).sum) :
    (tickAsset a inp).1.accumulated_depreciation =
      ((tickAsset a inp).1.entries.map DepreciationEntry.depreciation_amount).sum := by
  unfold tickAsset
  dsimp only
  split_ifs
  · exact h
  all_goals simp [h]

/-- C10: a freshly created fixed asset starts with zero
`accumulated_depreciation` and an empty depreciation log, and every
sequence of scheduler ticks keeps the stored running total equal to
the sum of `depreciation_amount` over the asset's depreciation
entries. -/
theorem accumulated_depreciation_matches_log (id : Nat) (nm : String) (pd : Date)
    (pc : Int) (life : Nat) (m : AssetDepreciationMethod) (sv : Int)
    (a : FixedAsset) (inputs : List DepTickInput)
    (hlog : a.accumulated_depreciation =
      (a.entries.map DepreciationEntry.depreciation_amount).sum) :
    (mkFixedAsset id nm pd pc life m sv).accumulated_depreciation = 0 ∧
    (mkFixedAsset id nm pd pc life m sv).entries = [] ∧
    (applyTicks a inputs).accumulated_depreciation =
      ((applyTicks a inputs).entries.map DepreciationEntry.depreciation_amount).sum := by
  refine ⟨rfl, rfl, ?_⟩
  induction inputs generalizing a with
  | nil => exact hlog
  | cons inp rest ih =>
    show (applyTicks (tickAsset a inp).1 rest).accumulated_depreciation = _
    exact ih (tickAsset a inp).1 (tickAsset_log a inp hlog)

/-- Witness for C10 at a concrete declining-balance asset with a
non-empty log. -/
theorem accumulated_depreciation_matches_log_witness :
    (⟨2, "Mobil", ⟨2023, 6, 1⟩, 50000000, 4, .declining_balance, 5000000, 1000000,
        .active, [⟨2, ⟨2023, 6, 30⟩, 1000000⟩]⟩ : FixedAsset).accumulated_depreciation =
      (((⟨2, "Mobil", ⟨2023, 6, 1⟩, 50000000, 4, .declining_balance, 5000000, 1000000,
        .active, [⟨2, ⟨2023, 6, 30⟩, 1000000⟩]⟩ : FixedAsset).entries.map
          DepreciationEntry.depreciation_amount).sum) ∧
    (applyTicks (⟨2, "Mobil", ⟨2023, 6, 1⟩, 50000000, 4, .declining_balance, 5000000,
        1000000, .active, [⟨2, ⟨2023, 6, 30⟩, 1000000⟩]⟩ : FixedAsset)
      [⟨⟨2023, 7, 31⟩, 2500, 0, 0⟩]).accumulated_depreciation =
      ((applyTicks (⟨2, "Mobil", ⟨2023, 6, 1⟩, 50000000, 4, .declining_balance, 5000000,
        1000000, .active, [⟨2, ⟨2023, 6, 30⟩, 1000000⟩]⟩ : FixedAsset)
        [⟨⟨2023, 7, 31⟩, 2500, 0, 0⟩]).entries.map
          DepreciationEntry.depreciation_amount).sum :=
  ⟨by decide,
    (accumulated_depreciation_matches_log 2 "Mobil" ⟨2023, 6, 1⟩ 50000000 4
      .declining_balance 5000000
      (⟨2, "Mobil", ⟨2023, 6, 1⟩, 50000000, 4, .declining_balance, 5000000, 1000000,
        .active, [⟨2, ⟨2023, 6, 30⟩, 1000000⟩]⟩ : FixedAsset)
      [⟨⟨2023, 7, 31⟩, 2500, 0, 0⟩] (by decide)).2.2⟩

/-- C4: for dates start ≤ end, `period_balance` equals the cumulative
difference `balance(end) - balance(start - 1 day)` for asset,
liability and equity accounts, and equals the sum of the account's own
entry effects dated within the closed range for revenue and expense
accounts. -/
theorem periodBalance_spec (accs : List Account) (txs : List Transaction)
    (a : Account) (ds de : Date) (_h : dateLE ds de = true) :
    ((a.account_type = .asset ∨ a.account_type = .liability ∨
        a.account_type = .equity) →
      periodBalance txs a ds de =
        balance accs txs a.id de false - balance accs txs a.id (prevDay ds) false) ∧
    ((a.account_type = .revenue ∨ a.account_type = .expense) →
      periodBalance txs a ds de = flowTotal txs a.id ds de) := by
  constructor
  · rintro (ht | ht | ht) <;> simp [periodBalance, balance, ht]
  · rintro (ht | ht) <;> simp [periodBalance, balance, ht]

/-- Witness for C4 at a concrete asset account, a concrete revenue
account and concrete dates. -/
theorem periodBalance_spec_witness :
    dateLE ⟨2024, 1, 1⟩ ⟨2024, 1, 31⟩ = true ∧
    (((⟨1, "1000", "Kas", .asset, none, true⟩ : Account).account_type = .asset ∨
        (⟨1, "1000", "Kas", .asset, none, true⟩ : Account).account_type = .liability ∨
        (⟨1, "1000", "Kas", .asset, none, true⟩ : Account).account_type = .equity) →
      periodBalance [] (⟨1, "1000", "Kas", .asset, none, true⟩ : Account)
          ⟨2024, 1, 1⟩ ⟨2024, 1, 31⟩ =
        balance [] [] 1 ⟨2024, 1, 31⟩ false -
          balance [] [] 1 (prevDay ⟨2024, 1, 1⟩) false) :=
  ⟨by decide,
    (periodBalance_spec [] [] (⟨1, "1000", "Kas", .asset, none, true⟩ : Account)
      ⟨2024, 1, 1⟩ ⟨2024, 1, 31⟩ (by decide)).1⟩

theorem checkAccounts_error_shape (accs : List Account)
    (es : List JournalEntryCreate) (x : PostingError)
    (h : checkAccounts accs es = some x) :
    x = .unknownAccount ∨ x = .inactiveAccount := by
  induction es with
  | nil => simp [checkAccounts] at h
  | cons e rest ih =>
    unfold checkAccounts at h
    cases hf : findAcct accs e.account_id with
    | none =>
      rw [hf] at h
      dsimp only at h
      simp at h
      exact Or.inl h.symm
    | some a =>
      rw [hf] at h
      dsimp only at h
      cases ha : a.is_active with
      | true => rw [ha] at h; simp at h; exact ih h
      | false => rw [ha] at h; simp at h; exact Or.inr h.symm

theorem checkAccounts_none_sound (accs : List Account)
    (es : List JournalEntryCreate) (h : checkAccounts accs es = none) :
    ∀ e ∈ es, ∃ a, findAcct accs e.account_id = some a ∧ a.is_active = true := by
  induction es with
  | nil => intro e he; simp at he
  | cons e rest ih =>
    unfold checkAccounts at h
    cases hf : findAcct accs e.account_id with
    | none => rw [hf] at h; dsimp only at h; simp at h
    | some a =>
      rw [hf] at h
      dsimp only at h
      cases ha : a.is_active with
      | true =>
        rw [ha] at h
        simp at h
        intro f hf2
        rcases List.mem_cons.mp hf2 with rfl | hf3
        · exact ⟨a, hf, ha⟩
        · exact ih h f hf3
      | false => rw [ha] at h; simp at h

theorem checkAccounts_none_of (accs : List Account) (es : List JournalEntryCreate)
    (h : ∀ e ∈ es, ∃ a, findAcct accs e.account_id = some a ∧ a.is_active = true) :
    checkAccounts accs es = none := by
  induction es with
  | nil => rfl
  | cons e rest ih =>
    obtain ⟨a, hf, ha⟩ := h e (by simp)
    unfold checkAccounts
    rw [hf]
    dsimp only
    rw [ha]
    simp only [if_true]
    exact ih (fun f hf2 => h f (by simp [hf2]))

theorem checkShapes_some_shape (es : List JournalEntryCreate) (x : PostingError)
    (h : checkShapes es = some x) : x = .malformedEntry := by
  induction es with
  | nil => simp [checkShapes] at h
  | cons e rest ih =>
    unfold checkShapes at h
    cases hm : isMalformed e with
    | true => rw [hm] at h; simp at h; exact h.symm
    | false => rw [hm] at h; simp at h; exact ih h

theorem checkShapes_none_of (es : List JournalEntryCreate)
    (h : ∀ e ∈ es, isMalformed e = false) : checkShapes es = none := by
  induction es with
  | nil => rfl
  | cons e rest ih =>
    unfold checkShapes
    rw [h e (by simp)]
    simp only [if_false, Bool.false_eq_true]
    exact ih (fun f hf => h f (by simp [hf]))

theorem checkShapes_some_of (es : List JournalEntryCreate)
    (h : ∃ e ∈ es, isMalformed e = true) : checkShapes es = some .malformedEntry := by
  induction es with
  | nil => simp at h
  | cons e rest ih =>
    unfold checkShapes
    cases hm : isMalformed e with
    | true => simp
    | false =>
      simp only [hm, if_false, Bool.false_eq_true]
      apply ih
      rcases h with ⟨f, hf, hmal⟩
      rcases List.mem_cons.mp hf with rfl | hf2
      · rw [hm] at hmal; exact absurd hmal (by simp)
      · exact ⟨f, hf2, hmal⟩

/-- C3: the posting pipeline validates in short-circuit order -- fewer
than two entries, then unknown or inactive accounts, then malformed
entries, then the exact debit/credit comparison -- and every rejection
is returned synchronously with the ledger state exactly as before the
call. -/
theorem post_validation_pipeline (s : LedgerState) (d : TransactionDraft) :
    (∀ e : PostingError, (postS s d).2 = .error e → (postS s d).1 = s) ∧
    (d.entries.length < 2 → (postS s d).2 = .error .tooFewEntries) ∧
    (2 ≤ d.entries.length →
      (∃ e ∈ d.entries, findAcct s.accounts e.account_id = none ∨
        ∃ a, findAcct s.accounts e.account_id = some a ∧ a.is_active = false) →
      (postS s d).2 = .error .unknownAccount ∨
        (postS s d).2 = .error .inactiveAccount) ∧
    (2 ≤ d.entries.length →
      (∀ e ∈ d.entries, ∃ a, findAcct s.accounts e.account_id = some a ∧
        a.is_active = true) →
      (∃ e ∈ d.entries, isMalformed e = true) →
      (postS s d).2 = .error .malformedEntry) ∧
    (2 ≤ d.entries.length →
      (∀ e ∈ d.entries, ∃ a, findAcct s.accounts e.account_id = some a ∧
        a.is_active = true) →
      (∀ e ∈ d.entries, isMalformed e = false) →
      sumDebits d.entries ≠ sumCredits d.entries →
      (postS s d).2 = .error .unbalancedTransaction) := by
  refine ⟨?_, ?_, ?_, ?_, ?_⟩
  · intro e he
    unfold postS at he ⊢
    cases hv : validateDraft s.accounts d with
    | none => rw [hv] at he; simp at he
    | some x => rfl
  · intro hlen
    unfold postS validateDraft
    rw [if_pos hlen]
  · intro hlen hbad
    have hne : ¬ checkAccounts s.accounts d.entries = none := by
      intro hnone
      have hall := checkAccounts_none_sound s.accounts d.entries hnone
      rcases hbad with ⟨e, he, hcase⟩
      obtain ⟨a, hf, ha⟩ := hall e he
      rcases hcase with hf2 | ⟨a2, hf2, ha2⟩
      · rw [hf] at hf2; exact Option.noConfusion hf2
      · rw [hf] at hf2
        injection hf2 with hf3
        rw [← hf3, ha] at ha2
        simp at ha2
    cases hc : checkAccounts s.accounts d.entries with
    | none => exact absurd hc hne
    | some x =>
      have hx := checkAccounts_error_shape s.accounts d.entries x hc
      have hres : (postS s d).2 = .error x := by
        unfold postS validateDraft
        rw [if_neg (by omega), hc]
      rcases hx with rfl | rfl
      · exact Or.inl hres
      · exact Or.inr hres
  · intro hlen hgood hmal
    unfold postS validateDraft
    rw [if_neg (by omega), checkAccounts_none_of s.accounts d.entries hgood,
      checkShapes_some_of d.entries hmal]
  · intro hlen hgood hshape hsum
    unfold postS validateDraft
    rw [if_neg (by omega), checkAccounts_none_of s.accounts d.entries hgood,
      checkShapes_none_of d.entries hshape, if_neg hsum]

/-- Witness for C3: a one-entry draft is rejected with the
too-few-entries error and leaves a concrete ledger unchanged. -/
theorem post_validation_pipeline_witness :
    ((⟨[⟨1, "1000", "Kas", .asset, none, true⟩], [], 0⟩ : LedgerState).transactions.length < 2 →
      True) ∧
    ((postS ⟨[⟨1, "1000", "Kas", .asset, none, true⟩], [], 0⟩
        ⟨⟨2024, 1, 5⟩, .general_journal, "uji", none,
          [⟨1, 100, 0, none⟩]⟩).2 = .error .tooFewEntries) ∧
    ((postS ⟨[⟨1, "1000", "Kas", .asset, none, true⟩], [], 0⟩
        ⟨⟨2024, 1, 5⟩, .general_journal, "uji", none,
          [⟨1, 100, 0, none⟩]⟩).1 =
      ⟨[⟨1, "1000", "Kas", .asset, none, true⟩], [], 0⟩) :=
  ⟨fun _ => trivial,
    (post_validation_pipeline ⟨[⟨1, "1000", "Kas", .asset, none, true⟩], [], 0⟩
      ⟨⟨2024, 1, 5⟩, .general_journal, "uji", none, [⟨1, 100, 0, none⟩]⟩).2.1
      (by decide),
    (post_validation_pipeline ⟨[⟨1, "1000", "Kas", .asset, none, true⟩], [], 0⟩
      ⟨⟨2024, 1, 5⟩, .general_journal, "uji", none, [⟨1, 100, 0, none⟩]⟩).1
      .tooFewEntries
      ((post_validation_pipeline ⟨[⟨1, "1000", "Kas", .asset, none, true⟩], [], 0⟩
        ⟨⟨2024, 1, 5⟩, .general_journal, "uji", none, [⟨1, 100, 0, none⟩]⟩).2.1
        (by decide))⟩

theorem checkShapes_none_sound (es : List JournalEntryCreate)
    (h : checkShapes es = none) : ∀ e ∈ es, isMalformed e = false := by
  induction es with
  | nil => intro e he; simp at he
  | cons e rest ih =>
    unfold checkShapes at h
    cases hm : isMalformed e with
    | true => rw [hm] at h; simp at h
    | false =>
      rw [hm] at h
      simp only [if_false, Bool.false_eq_true] at h
      intro f hf
      rcases List.mem_cons.mp hf with rfl | hf2
      · exact hm
      · exact ih h f hf2

theorem validateDraft_none_sound (accs : List Account) (d : TransactionDraft)
    (h : validateDraft accs d = none) :
    2 ≤ d.entries.length ∧
    sumDebits d.entries = sumCredits d.entries ∧
    (∀ e ∈ d.entries, isMalformed e = false) := by
  unfold validateDraft at h
  split at h
  · exact absurd h (by simp)
  · cases hc : checkAccounts accs d.entries with
    | some x => rw [hc] at h; simp at h
    | none =>
      rw [hc] at h
      dsimp only at h
      cases hs : checkShapes d.entries with
      | some x => rw [hs] at h; simp at h
      | none =>
        rw [hs] at h
        dsimp only at h
        by_cases hsum : sumDebits d.entries = sumCredits d.entries
        · exact ⟨by omega, hsum, checkShapes_none_sound d.entries hs⟩
        · rw [if_neg hsum] at h; simp at h

theorem postS_ok {s s2 : LedgerState} {d : TransactionDraft} {tx : Transaction}
    (h : postS s d = (s2, .ok tx)) :
    validateDraft s.accounts d = none ∧ tx = commitTx s d ∧
    s2.accounts = s.accounts ∧
    s2.transactions = s.transactions ++ [commitTx s d] ∧
    s2.nextNumber = s.nextNumber + 1 := by
  unfold postS at h
  cases hv : validateDraft s.accounts d with
  | some e =>
    rw [hv] at h
    injection h with h1 h2
    exact absurd h2 (by simp)
  | none =>
    rw [hv] at h
    dsimp only at h
    injection h with h1 h2
    injection h2 with h3
    refine ⟨rfl, h3.symm, ?_, ?_, ?_⟩
    · rw [← h1]
    · rw [← h1]
    · rw [← h1]

theorem isMalformed_false_single_sided (e : JournalEntryCreate)
    (h : isMalformed e = false) :
    (e.debit_amount = 0 ∧ e.credit_amount ≠ 0) ∨
    (e.debit_amount ≠ 0 ∧ e.credit_amount = 0) := by
  simp only [isMalformed, Bool.or_eq_false_iff, Bool.and_eq_false_iff,
    decide_eq_false_iff_not, not_not, beq_iff_eq, beq_eq_false_iff_ne] at h
  rcases h with ⟨h1, h2⟩
  by_cases hd : e.debit_amount = 0
  · left
    refine ⟨hd, ?_⟩
    rcases h2 with h2 | h2
    · exact absurd hd h2
    · exact h2
  · right
    refine ⟨hd, ?_⟩
    rcases h1 with h1 | h1
    · exact absurd h1 hd
    · exact h1

theorem commitTx_sums (s : LedgerState) (d : TransactionDraft) :
    ((commitTx s d).entries.map JournalEntry.debit_amount).sum = sumDebits d.entries ∧
    ((commitTx s d).entries.map JournalEntry.credit_amount).sum = sumCredits d.entries := by
  constructor
  all_goals simp [commitTx, sumDebits, sumCredits, List.map_map, mkEntry]
  all_goals rfl

/-- C1: in every reachable ledger state, every committed transaction is
balanced -- the sum of `debit_amount` over its journal entries equals
the sum of `credit_amount` exactly -- and each of its entries has
exactly one of debit/credit non-zero with the other exactly zero. -/
theorem committed_transactions_balanced {s : LedgerState} (h : Reachable s) :
    ∀ tx ∈ s.transactions,
      (tx.entries.map JournalEntry.debit_amount).sum =
        (tx.entries.map JournalEntry.credit_amount).sum ∧
      ∀ e ∈ tx.entries,
        (e.debit_amount = 0 ∧ e.credit_amount ≠ 0) ∨
        (e.debit_amount ≠ 0 ∧ e.credit_amount = 0) := by
  induction h with
  | init accs => intro tx htx; simp at htx
  | @postTx s s2 d tx hr hpost ih =>
    obtain ⟨hv, htx, hacc, htrans, hnum⟩ := postS_ok hpost
    obtain ⟨hlen, hsum, hshape⟩ := validateDraft_none_sound s.accounts d hv
    intro tx2 htx2
    rw [htrans] at htx2
    rcases List.mem_append.mp htx2 with hold | hnew
    · exact ih tx2 hold
    · have htx3 : tx2 = commitTx s d := by simpa using hnew
      subst htx3
      have hcs := commitTx_sums s d
      constructor
      · rw [hcs.1, hcs.2]; exact hsum
      · intro e he
        simp only [commitTx, List.mem_map] at he
        obtain ⟨ec, hec, hmk⟩ := he
        have := isMalformed_false_single_sided ec (hshape ec hec)
        rw [← hmk]
        simpa [mkEntry] using this
  | @setAccounts s accs hr ih => exact ih

/-- Witness for C1: a two-account ledger after one successful post of a
balanced sales entry. -/
theorem committed_transactions_balanced_witness :
    ((([⟨0, 1, 100000, 0, none⟩, ⟨0, 2, 0, 100000, none⟩] : List JournalEntry).map
        JournalEntry.debit_amount).sum =
      (([⟨0, 1, 100000, 0, none⟩, ⟨0, 2, 0, 100000, none⟩] : List JournalEntry).map
        JournalEntry.credit_amount).sum) ∧
    (((⟨0, 1, 100000, 0, none⟩ : JournalEntry).debit_amount = 0 ∧
        (⟨0, 1, 100000, 0, none⟩ : JournalEntry).credit_amount ≠ 0) ∨
      ((⟨0, 1, 100000, 0, none⟩ : JournalEntry).debit_amount ≠ 0 ∧
        (⟨0, 1, 100000, 0, none⟩ : JournalEntry).credit_amount = 0)) ∧
    (((⟨0, 2, 0, 100000, none⟩ : JournalEntry).debit_amount = 0 ∧
        (⟨0, 2, 0, 100000, none⟩ : JournalEntry).credit_amount ≠ 0) ∨
      ((⟨0, 2, 0, 100000, none⟩ : JournalEntry).debit_amount ≠ 0 ∧
        (⟨0, 2, 0, 100000, none⟩ : JournalEntry).credit_amount = 0)) := by
  have h := committed_transactions_balanced
    (Reachable.postTx
      (Reachable.init [⟨1, "1000", "Kas", .asset, none, true⟩,
        ⟨2, "4000", "Pendapatan", .revenue, none, true⟩])
      (show postS ⟨[⟨1, "1000", "Kas", .asset, none, true⟩,
          ⟨2, "4000", "Pendapatan", .revenue, none, true⟩], [], 0⟩
          ⟨⟨2024, 1, 5⟩, .general_journal, "penjualan", none,
            [⟨1, 100000, 0, none⟩, ⟨2, 0, 100000, none⟩]⟩ =
        (⟨[⟨1, "1000", "Kas", .asset, none, true⟩,
          ⟨2, "4000", "Pendapatan", .revenue, none, true⟩],
          [⟨0, ⟨2024, 1, 5⟩, .general_journal, "penjualan", none,
            [⟨0, 1, 100000, 0, none⟩, ⟨0, 2, 0, 100000, none⟩]⟩],
          1⟩, .ok ⟨0, ⟨2024, 1, 5⟩, .general_journal, "penjualan", none,
            [⟨0, 1, 100000, 0, none⟩, ⟨0, 2, 0, 100000, none⟩]⟩)
        from rfl))
    ⟨0, ⟨2024, 1, 5⟩, .general_journal, "penjualan", none,
      [⟨0, 1, 100000, 0, none⟩, ⟨0, 2, 0, 100000, none⟩]⟩ (by simp)
  exact ⟨h.1, h.2 ⟨0, 1, 100000, 0, none⟩ (by simp),
    h.2 ⟨0, 2, 0, 100000, none⟩ (by simp)⟩

theorem reachable_tx_numbers {s : LedgerState} (h : Reachable s) :
    (∀ tx ∈ s.transactions, tx.transaction_number < s.nextNumber) ∧
    List.Pairwise (fun t1 t2 => t1.transaction_number < t2.transaction_number)
      s.transactions := by
  induction h with
  | init accs => exact ⟨by simp, by simp⟩
  | @postTx s s2 d tx hr hpost ih =>
    obtain ⟨hv, htx, hacc, htrans, hnum⟩ := postS_ok hpost
    constructor
    · intro tx2 htx2
      rw [htrans] at htx2
      rcases List.mem_append.mp htx2 with hold | hnew
      · have := ih.1 tx2 hold
        omega
      · have htx3 : tx2 = commitTx s d := by simpa using hnew
        subst htx3
        show s.nextNumber < s2.nextNumber
        omega
    · rw [htrans]
      apply List.pairwise_append.mpr
      refine ⟨ih.2, List.pairwise_singleton _ _, ?_⟩
      intro t1 ht1 t2 ht2
      have ht3 : t2 = commitTx s d := by simpa using ht2
      subst ht3
      exact ih.1 t1 ht1
  | @setAccounts s accs hr ih => exact ih

/-- C9: in every reachable ledger state the committed transactions
carry strictly increasing transaction numbers in commit order, no
number is ever reused, and a further successful post receives a number
strictly greater than that of every committed transaction. -/
theorem transaction_numbers_unique_monotone {s : LedgerState} (h : Reachable s) :
    List.Pairwise (fun t1 t2 => t1.transaction_number < t2.transaction_number)
      s.transactions ∧
    (s.transactions.map Transaction.transaction_number).Nodup ∧
    ∀ (d : TransactionDraft) (s2 : LedgerState) (tx : Transaction),
      postS s d = (s2, .ok tx) →
      ∀ t ∈ s.transactions, t.transaction_number < tx.transaction_number := by
  have hinv := reachable_tx_numbers h
  refine ⟨hinv.2, List.pairwise_map.mpr (hinv.2.imp fun hlt => Nat.ne_of_lt hlt), ?_⟩
  intro d s2 tx hpost t ht
  obtain ⟨hv, htx, _⟩ := postS_ok hpost
  subst htx
  exact hinv.1 t ht

/-- Witness for C9 at the same concrete one-post ledger. -/
theorem transaction_numbers_unique_monotone_witness :
    List.Pairwise (fun t1 t2 => t1.transaction_number < t2.transaction_number)
      (⟨[⟨1, "1000", "Kas", .asset, none, true⟩,
        ⟨2, "4000", "Pendapatan", .revenue, none, true⟩],
        [⟨0, ⟨2024, 1, 5⟩, .general_journal, "penjualan", none,
          [⟨0, 1, 100000, 0, none⟩, ⟨0, 2, 0, 100000, none⟩]⟩],
        1⟩ : LedgerState).transactions ∧
    ((⟨[⟨1, "1000", "Kas", .asset, none, true⟩,
        ⟨2, "4000", "Pendapatan", .revenue, none, true⟩],
        [⟨0, ⟨2024, 1, 5⟩, .general_journal, "penjualan", none,
          [⟨0, 1, 100000, 0, none⟩, ⟨0, 2, 0, 100000, none⟩]⟩],
        1⟩ : LedgerState).transactions.map Transaction.transaction_number).Nodup :=
  ⟨(transaction_numbers_unique_monotone
    (Reachable.postTx
      (Reachable.init [⟨1, "1000", "Kas", .asset, none, true⟩,
        ⟨2, "4000", "Pendapatan", .revenue, none, true⟩])
      (show postS ⟨[⟨1, "1000", "Kas", .asset, none, true⟩,
          ⟨2, "4000", "Pendapatan", .revenue, none, true⟩], [], 0⟩
          ⟨⟨2024, 1, 5⟩, .general_journal, "penjualan", none,
            [⟨1, 100000, 0, none⟩, ⟨2, 0, 100000, none⟩]⟩ =
        (⟨[⟨1, "1000", "Kas", .asset, none, true⟩,
          ⟨2, "4000", "Pendapatan", .revenue, none, true⟩],
          [⟨0, ⟨2024, 1, 5⟩, .general_journal, "penjualan", none,
            [⟨0, 1, 100000, 0, none⟩, ⟨0, 2, 0, 100000, none⟩]⟩],
          1⟩, .ok ⟨0, ⟨2024, 1, 5⟩, .general_journal, "penjualan", none,
            [⟨0, 1, 100000, 0, none⟩, ⟨0, 2, 0, 100000, none⟩]⟩)
        from rfl))).1,
   (transaction_numbers_unique_monotone
    (Reachable.postTx
      (Reachable.init [⟨1, "1000", "Kas", .asset, none, true⟩,
        ⟨2, "4000", "Pendapatan", .revenue, none, true⟩])
      (show postS ⟨[⟨1, "1000", "Kas", .asset, none, true⟩,
          ⟨2, "4000", "Pendapatan", .revenue, none, true⟩], [], 0⟩
          ⟨⟨2024, 1, 5⟩, .general_journal, "penjualan", none,
            [⟨1, 100000, 0, none⟩, ⟨2, 0, 100000, none⟩]⟩ =
        (⟨[⟨1, "1000", "Kas", .asset, none, true⟩,
          ⟨2, "4000", "Pendapatan", .revenue, none, true⟩],
          [⟨0, ⟨2024, 1, 5⟩, .general_journal, "penjualan", none,
            [⟨0, 1, 100000, 0, none⟩, ⟨0, 2, 0, 100000, none⟩]⟩],
          1⟩, .ok ⟨0, ⟨2024, 1, 5⟩, .general_journal, "penjualan", none,
            [⟨0, 1, 100000, 0, none⟩, ⟨0, 2, 0, 100000, none⟩]⟩)
        from rfl))).2.1⟩

theorem sum_map_comm (xs : List α) (ys : List β) (f : α → β → Int) :
    (xs.map (fun x => (ys.map (f x)).sum)).sum =
    (ys.map (fun y => (xs.map (fun x => f x y)).sum)).sum := by
  induction xs with
  | nil => simp
  | cons x xs ih =>
    simp only [List.map_cons, List.sum_cons, ih, List.sum_map_add]

theorem sum_map_filter_if (l : List α) (p : α → Bool) (f : α → Int) :
    ((l.filter p).map f).sum = (l.map (fun a => if p a then f a else 0)).sum := by
  induction l with
  | nil => simp
  | cons a rest ih =>
    cases h : p a <;> simp [List.filter_cons, h, ih]

theorem sum_map_sub_split (l : List α) (f g : α → Int) :
    (l.map (fun x => f x - g x)).sum = (l.map f).sum - (l.map g).sum := by
  induction l with
  | nil => simp
  | cons x xs ih =>
    simp only [List.map_cons, List.sum_cons, ih]
    omega

theorem sum_if_id (accs : List Account) (hnodup : (ids accs).Nodup) (x : Nat)
    (hx : x ∈ ids accs) (v : Int) :
    (accs.map (fun a => if x == a.id then v else 0)).sum = v := by
  induction accs with
  | nil => simp [ids] at hx
  | cons a rest ih =>
    simp only [ids, List.map_cons, List.nodup_cons] at hnodup
    by_cases hxa : x = a.id
    · simp only [List.map_cons, List.sum_cons, hxa, beq_self_eq_true, if_true]
      have hz : (rest.map (fun b => if a.id == b.id then v else 0)).sum = 0 := by
        apply List.sum_eq_zero
        intro z hz
        rcases List.mem_map.mp hz with ⟨b, hb, hbz⟩
        have hne : a.id ≠ b.id := by
          intro he
          exact hnodup.1 (he ▸ List.mem_map.mpr ⟨b, hb, rfl⟩)
        rw [← hbz, if_neg (by simpa using hne)]
      rw [hz]
      omega
    · have hne2 : (x == a.id) = false := by simpa using hxa
      simp only [List.map_cons, List.sum_cons, hne2, Bool.false_eq_true, if_false]
      have hx2 : x ∈ ids rest := by
        simp only [ids, List.map_cons, List.mem_cons] at hx
        rcases hx with h | h
        · exact absurd h hxa
        · exact h
      rw [ih hnodup.2 hx2]
      omega

theorem sum_txEffect (accs : List Account) (tx : Transaction)
    (hnodup : (ids accs).Nodup)
    (hacc : ∀ e ∈ tx.entries, e.account_id ∈ ids accs) :
    (accs.map (fun a => txEffect a.id tx)).sum =
      (tx.entries.map JournalEntry.debit_amount).sum -
      (tx.entries.map JournalEntry.credit_amount).sum := by
  have h1 : ∀ a : Account, txEffect a.id tx =
      (tx.entries.map (fun e => if e.account_id == a.id then entryEffect e else 0)).sum := by
    intro a
    unfold txEffect
    exact sum_map_filter_if tx.entries (fun e => e.account_id == a.id) entryEffect
  calc (accs.map (fun a => txEffect a.id tx)).sum
      = (accs.map (fun a => (tx.entries.map
          (fun e => if e.account_id == a.id then entryEffect e else 0)).sum)).sum := by
        simp only [h1]
    _ = (tx.entries.map (fun e => (accs.map
          (fun a => if e.account_id == a.id then entryEffect e else 0)).sum)).sum :=
        sum_map_comm accs tx.entries
          (fun a e => if e.account_id == a.id then entryEffect e else 0)
    _ = (tx.entries.map entryEffect).sum := by
        congr 1
        apply List.map_congr_left
        intro e he
        exact sum_if_id accs hnodup e.account_id (hacc e he) (entryEffect e)
    _ = (tx.entries.map JournalEntry.debit_amount).sum -
          (tx.entries.map JournalEntry.credit_amount).sum := by
        unfold entryEffect
        exact sum_map_sub_split tx.entries JournalEntry.debit_amount
          JournalEntry.credit_amount

theorem sum_own_zero (accs : List Account) (txs : List Transaction) (d : Date)
    (hnodup : (ids accs).Nodup)
    (hacc : ∀ tx ∈ txs, ∀ e ∈ tx.entries, e.account_id ∈ ids accs)
    (hbal : ∀ tx ∈ txs, (tx.entries.map JournalEntry.debit_amount).sum =
      (tx.entries.map JournalEntry.credit_amount).sum) :
    (accs.map (fun a => ownBalance txs a.id d)).sum = 0 := by
  unfold ownBalance
  rw [sum_map_comm accs (txs.filter (fun tx => dateLE tx.transaction_date d))
    (fun a tx => txEffect a.id tx)]
  apply List.sum_eq_zero
  intro z hz
  rcases List.mem_map.mp hz with ⟨tx, htx, hzx⟩
  have htx2 : tx ∈ txs := List.mem_of_mem_filter htx
  rw [← hzx, sum_txEffect accs tx hnodup (hacc tx htx2), hbal tx htx2]
  omega

theorem sum_own_partition (accs : List Account) (txs : List Transaction) (d : Date) :
    typeOwnTotal accs txs .asset d + typeOwnTotal accs txs .liability d +
    typeOwnTotal accs txs .equity d + typeOwnTotal accs txs .revenue d +
    typeOwnTotal accs txs .expense d =
    (accs.map (fun a => ownBalance txs a.id d)).sum := by
  induction accs with
  | nil => simp [typeOwnTotal]
  | cons a rest ih =>
    unfold typeOwnTotal at *
    cases h : a.account_type
    all_goals simp only [List.filter_cons, h, beq_iff_eq, List.map_cons, List.sum_cons]
    all_goals simp
    all_goals omega

/-- C6: over a ledger whose committed transactions are balanced and
reference known accounts, `buildBalanceSheet` returns a report whose
totals satisfy `total_assets = total_liabilities + total_equity`
exactly; whenever the computed totals fail the identity it raises
`IntegrityViolation`, and it never returns a mismatched report. -/
theorem buildBalanceSheet_identity (accs : List Account) (txs : List Transaction)
    (d : Date) (hnodup : (ids accs).Nodup)
    (hacc : ∀ tx ∈ txs, ∀ e ∈ tx.entries, e.account_id ∈ ids accs)
    (hbal : ∀ tx ∈ txs, (tx.entries.map JournalEntry.debit_amount).sum =
      (tx.entries.map JournalEntry.credit_amount).sum) :
    (∃ data : BalanceSheetData, buildBalanceSheet accs txs d = .ok data ∧
      data.total_assets = data.total_liabilities_equity) ∧
    (∀ (accs2 : List Account) (txs2 : List Transaction) (d2 : Date),
      totalAssets accs2 txs2 d2 ≠
          totalLiabilities accs2 txs2 d2 + totalEquity accs2 txs2 d2 →
      buildBalanceSheet accs2 txs2 d2 = .error .integrityViolation) ∧
    (∀ (accs2 : List Account) (txs2 : List Transaction) (d2 : Date)
      (data : BalanceSheetData), buildBalanceSheet accs2 txs2 d2 = .ok data →
      data.total_assets = data.total_liabilities_equity) := by
  have hzero := sum_own_zero accs txs d hnodup hacc hbal
  have hpart := sum_own_partition accs txs d
  have hid : totalAssets accs txs d =
      totalLiabilities accs txs d + totalEquity accs txs d := by
    unfold totalAssets totalLiabilities totalEquity netIncomeAsOf
    omega
  refine ⟨?_, ?_, ?_⟩
  · refine ⟨⟨typeLines accs txs .asset d, typeLines accs txs .liability d,
      typeLines accs txs .equity d, totalAssets accs txs d,
      totalLiabilities accs txs d + totalEquity accs txs d, d⟩, ?_, hid⟩
    unfold buildBalanceSheet
    rw [if_pos hid]
  · intro accs2 txs2 d2 hne
    unfold buildBalanceSheet
    rw [if_neg hne]
  · intro accs2 txs2 d2 data hok
    unfold buildBalanceSheet at hok
    by_cases he : totalAssets accs2 txs2 d2 =
        totalLiabilities accs2 txs2 d2 + totalEquity accs2 txs2 d2
    · rw [if_pos he] at hok
      injection hok with hd
      rw [← hd]
      exact he
    · rw [if_neg he] at hok
      exact Except.noConfusion hok

/-- Witness for C6 at a concrete two-account ledger holding one
balanced sales transaction. -/
theorem buildBalanceSheet_identity_witness :
    ∃ data : BalanceSheetData,
      buildBalanceSheet
        [⟨1, "1000", "Kas", .asset, none, true⟩,
          ⟨2, "4000", "Pendapatan", .revenue, none, true⟩]
        [⟨0, ⟨2024, 1, 5⟩, .general_journal, "penjualan", none,
          [⟨0, 1, 100000, 0, none⟩, ⟨0, 2, 0, 100000, none⟩]⟩]
        ⟨2024, 1, 31⟩ = .ok data ∧
      data.total_assets = data.total_liabilities_equity :=
  (buildBalanceSheet_identity
    [⟨1, "1000", "Kas", .asset, none, true⟩,
      ⟨2, "4000", "Pendapatan", .revenue, none, true⟩]
    [⟨0, ⟨2024, 1, 5⟩, .general_journal, "penjualan", none,
      [⟨0, 1, 100000, 0, none⟩, ⟨0, 2, 0, 100000, none⟩]⟩]
    ⟨2024, 1, 31⟩ (by decide) (by decide) (by decide)).1

/-- A template that the current tick can do nothing more with: either
it is no longer due, or posting its draft fails validation (and the
failure depends only on the chart of accounts). -/
def settled (accs : List Account) (today : Date) (t : RecurringTransaction) : Prop :=
  canFire t today = false ∨
    ∃ e, validateDraft accs (mkRecurringDraft t) = some e

theorem postS_accounts (s : LedgerState) (d : TransactionDraft) :
    (postS s d).1.accounts = s.accounts := by
  unfold postS
  cases hv : validateDraft s.accounts d <;> rfl

theorem postS_error_inv {s s2 : LedgerState} {d : TransactionDraft}
    {e : PostingError} (h : postS s d = (s2, .error e)) :
    validateDraft s.accounts d = some e ∧ s2 = s := by
  unfold postS at h
  cases hv : validateDraft s.accounts d with
  | some x =>
    rw [hv] at h
    injection h with h1 h2
    injection h2 with h3
    exact ⟨congrArg some h3, h1.symm⟩
  | none =>
    rw [hv] at h
    dsimp only at h
    injection h with h1 h2
    exact absurd h2 (by simp)

theorem postS_ok_of_validate {s : LedgerState} {d : TransactionDraft}
    (h : validateDraft s.accounts d = none) :
    postS s d = ({ s with
      transactions := s.transactions ++ [commitTx s d]
      nextNumber := s.nextNumber + 1 }, .ok (commitTx s d)) := by
  unfold postS
  rw [h]

theorem fireLoop_main (today : Date) (s : LedgerState) (t : RecurringTransaction) :
    (fireLoop today s t).1.accounts = s.accounts ∧
    settled s.accounts today (fireLoop today s t).2.1 := by
  induction s, t using fireLoop.induct today
  case case1 s t h s1 e heq =>
    have hinv := postS_error_inv heq
    rw [fireLoop.eq_def, dif_pos h, heq]
    exact ⟨by rw [hinv.2], Or.inr ⟨e, hinv.1⟩⟩
  case case2 s t h s1 tx heq ih =>
    have hacc : s1.accounts = s.accounts := by
      have h2 := postS_accounts s (mkRecurringDraft t)
      rw [heq] at h2
      exact h2
    rw [fireLoop.eq_def, dif_pos h, heq]
    dsimp only
    rw [← hacc]
    exact ih
  case case3 s t h =>
    rw [fireLoop.eq_def, dif_neg h]
    exact ⟨rfl, Or.inl (by simpa using h)⟩

theorem fireLoop_of_settled (today : Date) (s : LedgerState)
    (t : RecurringTransaction) (h : settled s.accounts today t) :
    (fireLoop today s t).1 = s ∧ (fireLoop today s t).2.1 = t ∧
    (fireLoop today s t).2.2.1 = [] := by
  rcases h with hfalse | ⟨e, hval⟩
  · rw [fireLoop.eq_def, dif_neg (by simp [hfalse])]
    exact ⟨rfl, rfl, rfl⟩
  · by_cases hc : canFire t today = true
    · have hpost : postS s (mkRecurringDraft t) = (s, .error e) := by
        unfold postS
        rw [hval]
      rw [fireLoop.eq_def, dif_pos hc, hpost]
      exact ⟨rfl, rfl, rfl⟩
    · rw [fireLoop.eq_def, dif_neg hc]
      exact ⟨rfl, rfl, rfl⟩

theorem fireLoop_single (today : Date) (s : LedgerState) (t : RecurringTransaction)
    (h1 : canFire t today = true)
    (h2 : validateDraft s.accounts (mkRecurringDraft t) = none)
    (h3 : canFire (advanceTemplate t) today = false) :
    (fireLoop today s t).2.2.1.length = 1 := by
  rw [fireLoop.eq_def, dif_pos h1, postS_ok_of_validate h2]
  dsimp only
  rw [fireLoop.eq_def, dif_neg (by simp [h3])]
  rfl

theorem processTemplates_accounts (today : Date) (s : LedgerState)
    (ts : List RecurringTransaction) :
    (processTemplates today s ts).1.accounts = s.accounts := by
  induction ts generalizing s with
  | nil => rfl
  | cons t ts ih =>
    calc (processTemplates today s (t :: ts)).1.accounts
        = (processTemplates today (fireLoop today s t).1 ts).1.accounts := rfl
      _ = (fireLoop today s t).1.accounts := ih (fireLoop today s t).1
      _ = s.accounts := (fireLoop_main today s t).1

theorem processTemplates_settled (today : Date) (s : LedgerState)
    (ts : List RecurringTransaction) :
    ∀ r ∈ (processTemplates today s ts).2, settled s.accounts today r.1 := by
  induction ts generalizing s with
  | nil => intro r hr; simp [processTemplates] at hr
  | cons t ts ih =>
    intro r hr
    have hmem : r = ((fireLoop today s t).2.1, (fireLoop today s t).2.2.1,
        (fireLoop today s t).2.2.2) ∨
        r ∈ (processTemplates today (fireLoop today s t).1 ts).2 := by
      simpa [processTemplates] using hr
    rcases hmem with rfl | hm
    · exact (fireLoop_main today s t).2
    · have h2 := ih (fireLoop today s t).1 r hm
      rwa [(fireLoop_main today s t).1] at h2

theorem processTemplates_of_settled (today : Date) (s : LedgerState)
    (ts : List RecurringTransaction)
    (h : ∀ t ∈ ts, settled s.accounts today t) :
    (processTemplates today s ts).1 = s ∧
    ∀ r ∈ (processTemplates today s ts).2, r.2.1 = [] := by
  induction ts generalizing s with
  | nil =>
    refine ⟨rfl, ?_⟩
    intro r hr
    simp [processTemplates] at hr
  | cons t ts ih =>
    have hf := fireLoop_of_settled today s t (h t (by simp))
    refine ⟨?_, ?_⟩
    · show (processTemplates today (fireLoop today s t).1 ts).1 = s
      rw [hf.1]
      exact (ih s (fun t2 ht2 => h t2 (by simp [ht2]))).1
    · intro r hr
      have hmem : r = ((fireLoop today s t).2.1, (fireLoop today s t).2.2.1,
          (fireLoop today s t).2.2.2) ∨
          r ∈ (processTemplates today (fireLoop today s t).1 ts).2 := by
        simpa [processTemplates] using hr
      rcases hmem with rfl | hm
      · exact hf.2.2
      · rw [hf.1] at hm
        exact (ih s (fun t2 ht2 => h t2 (by simp [ht2]))).2 r hm

theorem processTemplates_once (today : Date) (s : LedgerState)
    (ts : List RecurringTransaction) :
    List.Forall₂ (fun t r => canFire t today = true →
        validateDraft s.accounts (mkRecurringDraft t) = none →
        canFire (advanceTemplate t) today = false →
        r.2.1.length = 1)
      ts (processTemplates today s ts).2 := by
  induction ts generalizing s with
  | nil => exact List.Forall₂.nil
  | cons t ts ih =>
    show List.Forall₂ _ (t :: ts)
      (((fireLoop today s t).2.1, (fireLoop today s t).2.2.1,
        (fireLoop today s t).2.2.2) ::
        (processTemplates today (fireLoop today s t).1 ts).2)
    apply List.Forall₂.cons
    · intro h1 h2 h3
      exact fireLoop_single today s t h1 h2 h3
    · have h2 := ih (fireLoop today s t).1
      rwa [(fireLoop_main today s t).1] at h2

/-- C7: recurrence firing is idempotent: running the tick a second time
with the same date posts nothing -- it leaves the ledger state
unchanged and every per-template result of the second run carries an
empty transaction list -- while in the first run each template that was
due, whose draft posts successfully, and whose advanced schedule is no
longer due, produces exactly one committed transaction. -/
theorem tickRecurrence_idempotent (today : Date) (s : LedgerState)
    (ts : List RecurringTransaction) :
    ((processTemplates today (processTemplates today s ts).1
        ((processTemplates today s ts).2.map (fun r => r.1))).1 =
      (processTemplates today s ts).1) ∧
    (∀ r ∈ (processTemplates today (processTemplates today s ts).1
        ((processTemplates today s ts).2.map (fun r => r.1))).2, r.2.1 = []) ∧
    List.Forall₂ (fun t r => canFire t today = true →
        validateDraft s.accounts (mkRecurringDraft t) = none →
        canFire (advanceTemplate t) today = false →
        r.2.1.length = 1)
      ts (processTemplates today s ts).2 := by
  have hsettled : ∀ t2 ∈ (processTemplates today s ts).2.map (fun r => r.1),
      settled (processTemplates today s ts).1.accounts today t2 := by
    intro t2 ht2
    rcases List.mem_map.mp ht2 with ⟨r, hr, hrt⟩
    rw [processTemplates_accounts, ← hrt]
    exact processTemplates_settled today s ts r hr
  have hmain := processTemplates_of_settled today (processTemplates today s ts).1
    ((processTemplates today s ts).2.map (fun r => r.1)) hsettled
  exact ⟨hmain.1, hmain.2, processTemplates_once today s ts⟩

/-- Witness for C7 at a concrete monthly template over a two-account
ledger: the second run of the tick leaves the ledger unchanged. -/
theorem tickRecurrence_idempotent_witness :
    (processTemplates ⟨2024, 2, 10⟩
      (processTemplates ⟨2024, 2, 10⟩
        ⟨[⟨1, "1000", "Kas", .asset, none, true⟩,
          ⟨2, "4000", "Pendapatan", .revenue, none, true⟩], [], 0⟩
        [⟨7, "sewa", .monthly, ⟨2024, 1, 31⟩, none, ⟨2024, 1, 31⟩, 250000, 1, 2, true⟩]).1
      ((processTemplates ⟨2024, 2, 10⟩
        ⟨[⟨1, "1000", "Kas", .asset, none, true⟩,
          ⟨2, "4000", "Pendapatan", .revenue, none, true⟩], [], 0⟩
        [⟨7, "sewa", .monthly, ⟨2024, 1, 31⟩, none, ⟨2024, 1, 31⟩, 250000, 1, 2, true⟩]).2.map
          (fun r => r.1))).1 =
    (processTemplates ⟨2024, 2, 10⟩
      ⟨[⟨1, "1000", "Kas", .asset, none, true⟩,
        ⟨2, "4000", "Pendapatan", .revenue, none, true⟩], [], 0⟩
      [⟨7, "sewa", .monthly, ⟨2024, 1, 31⟩, none, ⟨2024, 1, 31⟩, 250000, 1, 2, true⟩]).1 :=
  (tickRecurrence_idempotent ⟨2024, 2, 10⟩
    ⟨[⟨1, "1000", "Kas", .asset, none, true⟩,
      ⟨2, "4000", "Pendapatan", .revenue, none, true⟩], [], 0⟩
    [⟨7, "sewa", .monthly, ⟨2024, 1, 31⟩, none, ⟨2024, 1, 31⟩, 250000, 1, 2, true⟩]).1

theorem mem_ancChain_iff (accs : List Account) :
    ∀ (n x y : Nat), y ∈ ancChain accs n x ↔ ∃ k < n, iterP accs k x = some y := by
  intro n
  induction n with
  | zero => intro x y; simp [ancChain]
  | succ n ih =>
    intro x y
    unfold ancChain
    cases hp : parentOf accs x with
    | none =>
      constructor
      · intro hy
        rcases List.mem_cons.mp hy with rfl | hy2
        · exact ⟨0, by omega, rfl⟩
        · simp at hy2
      · rintro ⟨k, hk, hik⟩
        cases k with
        | zero =>
          injection hik with hik2
          rw [hik2]
          exact List.mem_cons_self _ _
        | succ k =>
          unfold iterP at hik
          rw [hp] at hik
          exact absurd hik (by simp)
    | some p =>
      constructor
      · intro hy
        rcases List.mem_cons.mp hy with rfl | hy2
        · exact ⟨0, by omega, rfl⟩
        · rcases (ih p y).mp hy2 with ⟨k, hk, hik⟩
          refine ⟨k + 1, by omega, ?_⟩
          unfold iterP
          rw [hp]
          exact hik
      · rintro ⟨k, hk, hik⟩
        cases k with
        | zero =>
          injection hik with hik2
          rw [hik2]
          exact List.mem_cons_self _ _
        | succ k =>
          unfold iterP at hik
          rw [hp] at hik
          exact List.mem_cons_of_mem x ((ih p y).mpr ⟨k, by omega, hik⟩)

theorem iterP_one (accs : List Account) (y : Nat) :
    iterP accs 1 y = parentOf accs y := by
  unfold iterP
  cases parentOf accs y <;> rfl

theorem iterP_add (accs : List Account) :
    ∀ (a b x : Nat), iterP accs (a + b) x = (iterP accs a x).bind (iterP accs b) := by
  intro a
  induction a with
  | zero =>
    intro b x
    rw [Nat.zero_add]
    rfl
  | succ a ih =>
    intro b x
    cases hp : parentOf accs x with
    | none =>
      have h1 : iterP accs (a + b + 1) x = none := by
        unfold iterP
        rw [hp]
      have h2 : iterP accs (a + 1) x = none := by
        unfold iterP
        rw [hp]
      rw [Nat.succ_add, h1, h2]
      rfl
    | some p =>
      have h1 : iterP accs (a + b + 1) x = iterP accs (a + b) p := by
        simp only [iterP, hp]
      have h2 : iterP accs (a + 1) x = iterP accs a p := by
        simp only [iterP, hp]
      rw [Nat.succ_add, h1, h2]
      exact ih b p

theorem iterP_succ_right (accs : List Account) (k x : Nat) :
    iterP accs (k + 1) x = (iterP accs k x).bind (parentOf accs) := by
  rw [iterP_add accs k 1 x]
  cases iterP accs k x with
  | none => rfl
  | some y =>
    show iterP accs 1 y = parentOf accs y
    exact iterP_one accs y

theorem iterP_ret {accs : List Account} (hA : Acyclic accs) {k y : Nat}
    (h : iterP accs k y = some y) : k = 0 := by
  by_contra hk
  exact hA y k (by omega) h

theorem iterP_inj {accs : List Account} (hA : Acyclic accs) {i j x y : Nat}
    (hi : iterP accs i x = some y) (hj : iterP accs j x = some y) : i = j := by
  rcases Nat.le_total i j with hle | hle
  · have hadd := iterP_add accs i (j - i) x
    rw [Nat.add_sub_cancel' hle, hj, hi] at hadd
    have : iterP accs (j - i) y = some y := hadd.symm
    have := iterP_ret hA this
    omega
  · have hadd := iterP_add accs j (i - j) x
    rw [Nat.add_sub_cancel' hle, hi, hj] at hadd
    have : iterP accs (i - j) y = some y := hadd.symm
    have := iterP_ret hA this
    omega

theorem ancChain_nodup {accs : List Account} (hA : Acyclic accs) :
    ∀ (n x : Nat), (ancChain accs n x).Nodup := by
  intro n
  induction n with
  | zero => intro x; simp [ancChain]
  | succ n ih =>
    intro x
    unfold ancChain
    cases hp : parentOf accs x with
    | none => simp
    | some p =>
      refine List.nodup_cons.mpr ⟨?_, ih p⟩
      intro hx
      rcases (mem_ancChain_iff accs n p x).mp hx with ⟨k, hk, hik⟩
      have hcyc : iterP accs (k + 1) x = some x := by
        unfold iterP
        rw [hp]
        exact hik
      exact hA x (k + 1) (by omega) hcyc

theorem parentOf_mem_ids {accs : List Account} {y z : Nat}
    (h : parentOf accs y = some z) : y ∈ ids accs := by
  unfold parentOf findAcct at h
  cases hf : accs.find? (fun a => a.id == y) with
  | none => rw [hf] at h; simp at h
  | some a =>
    have hpa := List.find?_some hf
    have hmem := List.mem_of_find?_eq_some hf
    have hay : a.id = y := by simpa using hpa
    exact hay ▸ List.mem_map.mpr ⟨a, hmem, rfl⟩

theorem ancChain_tail_parent (accs : List Account) :
    ∀ (n x : Nat), ∀ y ∈ ancChain accs n x,
      y = x ∨ y ∈ accs.filterMap Account.parent_id := by
  intro n
  induction n with
  | zero => intro x y hy; simp [ancChain] at hy
  | succ n ih =>
    intro x y hy
    unfold ancChain at hy
    cases hp : parentOf accs x with
    | none =>
      rw [hp] at hy
      rcases List.mem_cons.mp hy with rfl | hy2
      · exact Or.inl rfl
      · simp at hy2
    | some p =>
      rw [hp] at hy
      rcases List.mem_cons.mp hy with rfl | hy2
      · exact Or.inl rfl
      · right
        have hpar : p ∈ accs.filterMap Account.parent_id := by
          unfold parentOf findAcct at hp
          cases hf : accs.find? (fun a => a.id == x) with
          | none => rw [hf] at hp; simp at hp
          | some a =>
            rw [hf] at hp
            exact List.mem_filterMap.mpr ⟨a, List.mem_of_find?_eq_some hf, by simpa using hp⟩
        rcases ih p y hy2 with rfl | hy3
        · exact hpar
        · exact hy3

theorem ancChain_length_le {accs : List Account} (hA : Acyclic accs)
    (n x : Nat) : (ancChain accs n x).length ≤ accs.length + 1 := by
  have hnd := ancChain_nodup hA n x
  have hsub : ancChain accs n x ⊆ (x :: accs.filterMap Account.parent_id).dedup := by
    intro y hy
    rw [List.mem_dedup]
    rcases ancChain_tail_parent accs n x y hy with rfl | hy2
    · exact List.mem_cons_self _ _
    · exact List.mem_cons_of_mem _ hy2
  have hsp := hnd.subperm hsub
  have h1 := hsp.length_le
  have h2 := (List.dedup_sublist (x :: accs.filterMap Account.parent_id)).length_le
  have h3 := List.length_filterMap_le Account.parent_id accs
  simp only [List.length_cons] at h2
  omega

theorem ancChain_closed (accs : List Account) :
    ∀ (n x y z : Nat), (ancChain accs n x).length < n →
      y ∈ ancChain accs n x → parentOf accs y = some z →
      z ∈ ancChain accs n x := by
  intro n
  induction n with
  | zero => intro x y z hlen; omega
  | succ n ih =>
    intro x y z hlen hy hz
    cases hp : parentOf accs x with
    | none =>
      have hchain : ancChain accs (n + 1) x = [x] := by
        simp only [ancChain, hp]
      rw [hchain] at hy ⊢
      rcases List.mem_cons.mp hy with rfl | hy2
      · rw [hp] at hz; exact Option.noConfusion hz
      · simp at hy2
    | some p =>
      have hchain : ancChain accs (n + 1) x = x :: ancChain accs n p := by
        simp only [ancChain, hp]
      rw [hchain] at hlen hy ⊢
      simp only [List.length_cons] at hlen
      have hlen2 : (ancChain accs n p).length < n := by omega
      rcases List.mem_cons.mp hy with rfl | hy2
      · rw [hp] at hz
        injection hz with hz2
        have hn : 1 ≤ n := by omega
        have hmem : z ∈ ancChain accs n p :=
          (mem_ancChain_iff accs n p z).mpr ⟨0, by omega, by simp [iterP, hz2]⟩
        exact List.mem_cons_of_mem _ hmem
      · exact List.mem_cons_of_mem x (ih p y z hlen2 hy2 hz)

theorem anc_self (accs : List Account) (x : Nat) : x ∈ anc accs x :=
  (mem_ancChain_iff accs (chartFuel accs) x x).mpr
    ⟨0, by unfold chartFuel; omega, rfl⟩

theorem anc_closed {accs : List Account} (hA : Acyclic accs) {x y z : Nat}
    (hy : y ∈ anc accs x) (hz : parentOf accs y = some z) : z ∈ anc accs x := by
  have hlen := ancChain_length_le hA (chartFuel accs) x
  exact ancChain_closed accs (chartFuel accs) x y z
    (by unfold chartFuel at *; omega) hy hz

theorem anc_step (accs : List Account) :
    ∀ (n x a : Nat), a ∈ ancChain accs n x → a ≠ x →
      ∃ y ∈ ancChain accs n x, parentOf accs y = some a := by
  intro n
  induction n with
  | zero => intro x a ha; simp [ancChain] at ha
  | succ n ih =>
    intro x a ha hne
    cases hp : parentOf accs x with
    | none =>
      have hchain : ancChain accs (n + 1) x = [x] := by
        simp only [ancChain, hp]
      rw [hchain] at ha
      rcases List.mem_cons.mp ha with rfl | h2
      · exact absurd rfl hne
      · simp at h2
    | some p =>
      have hchain : ancChain accs (n + 1) x = x :: ancChain accs n p := by
        simp only [ancChain, hp]
      rw [hchain] at ha ⊢
      rcases List.mem_cons.mp ha with rfl | h2
      · exact absurd rfl hne
      · by_cases hap : a = p
        · refine ⟨x, List.mem_cons_self _ _, ?_⟩
          rw [hp, hap]
        · rcases ih p a h2 hap with ⟨y, hy, hya⟩
          exact ⟨y, List.mem_cons_of_mem x hy, hya⟩

theorem findAcct_of_mem {accs : List Account} (hnd : (ids accs).Nodup)
    {c : Account} (hc : c ∈ accs) : findAcct accs c.id = some c := by
  induction accs with
  | nil => simp at hc
  | cons a rest ih =>
    simp only [ids, List.map_cons, List.nodup_cons] at hnd
    rcases List.mem_cons.mp hc with rfl | hc2
    · unfold findAcct
      rw [List.find?_cons_of_pos _ (by simp)]
    · have hne : a.id ≠ c.id := by
        intro he
        exact hnd.1 (he ▸ List.mem_map.mpr ⟨c, hc2, rfl⟩)
      unfold findAcct
      rw [List.find?_cons_of_neg _ (by simpa using hne)]
      exact ih hnd.2 hc2

theorem parentOf_of_mem {accs : List Account} (hnd : (ids accs).Nodup)
    {c : Account} (hc : c ∈ accs) : parentOf accs c.id = c.parent_id := by
  unfold parentOf
  rw [findAcct_of_mem hnd hc]
  rfl

theorem acct_id_inj {accs : List Account} (hnd : (ids accs).Nodup)
    {c1 c2 : Account} (h1 : c1 ∈ accs) (h2 : c2 ∈ accs) (h : c1.id = c2.id) :
    c1 = c2 :=
  List.inj_on_of_nodup_map hnd h1 h2 h

theorem parentOf_some_acct {accs : List Account} {y z : Nat}
    (h : parentOf accs y = some z) :
    ∃ c ∈ accs, c.id = y ∧ c.parent_id = some z := by
  unfold parentOf findAcct at h
  cases hf : accs.find? (fun a => a.id == y) with
  | none => rw [hf] at h; simp at h
  | some a =>
    rw [hf] at h
    have hpa := List.find?_some hf
    exact ⟨a, List.mem_of_find?_eq_some hf, by simpa using hpa, by simpa using h⟩

theorem child_in_anc_unique {accs : List Account} (hA : Acyclic accs)
    (hnd : (ids accs).Nodup) {a b : Nat} {c1 c2 : Account}
    (hc1 : c1 ∈ accs) (hc2 : c2 ∈ accs)
    (hp1 : c1.parent_id = some a) (hp2 : c2.parent_id = some a)
    (h1 : c1.id ∈ anc accs b) (h2 : c2.id ∈ anc accs b) : c1 = c2 := by
  rcases (mem_ancChain_iff accs (chartFuel accs) b c1.id).mp h1 with ⟨i, hi, hii⟩
  rcases (mem_ancChain_iff accs (chartFuel accs) b c2.id).mp h2 with ⟨j, hj, hjj⟩
  have hpi : iterP accs (i + 1) b = some a := by
    rw [iterP_succ_right, hii]
    show parentOf accs c1.id = some a
    rw [parentOf_of_mem hnd hc1]
    exact hp1
  have hpj : iterP accs (j + 1) b = some a := by
    rw [iterP_succ_right, hjj]
    show parentOf accs c2.id = some a
    rw [parentOf_of_mem hnd hc2]
    exact hp2
  have hij : i + 1 = j + 1 := iterP_inj hA hpi hpj
  have hij2 : i = j := by omega
  rw [hij2, hjj] at hii
  injection hii with hid
  exact acct_id_inj hnd hc1 hc2 hid.symm

theorem countP_eq_one_of_unique {α : Type} {l : List α} (hnd : l.Nodup)
    {c : α} (p : α → Bool) (hc : c ∈ l) (hpc : p c = true)
    (huniq : ∀ x ∈ l, p x = true → x = c) : l.countP p = 1 := by
  induction l with
  | nil => simp at hc
  | cons a rest ih =>
    rw [List.countP_cons]
    rcases List.mem_cons.mp hc with rfl | hc2
    · have hz : rest.countP p = 0 := by
        rw [List.countP_eq_zero]
        intro x hx hpx
        have hxc := huniq x (List.mem_cons_of_mem _ hx) hpx
        rw [hxc] at hx
        exact (List.nodup_cons.mp hnd).1 hx
      rw [hz, hpc]
      simp
    · have hpa : p a = false := by
        cases hpa : p a with
        | false => rfl
        | true =>
          have hac := huniq a (List.mem_cons_self _ _) hpa
          rw [hac] at hnd
          exact absurd hc2 (List.nodup_cons.mp hnd).1
      rw [hpa]
      have hr := ih (List.nodup_cons.mp hnd).2 hc2
        (fun x hx hpx => huniq x (List.mem_cons_of_mem _ hx) hpx)
      simpa using hr

theorem sum_if_count {α : Type} (l : List α) (p : α → Bool) (v : Int) :
    (l.map (fun x => if p x then v else 0)).sum = (l.countP p : Int) * v := by
  induction l with
  | nil => simp
  | cons a rest ih =>
    rw [List.map_cons, List.sum_cons, ih, List.countP_cons]
    cases hpa : p a with
    | false =>
      simp only [hpa, Bool.false_eq_true, if_false, Nat.add_zero]
      ring
    | true =>
      simp only [hpa]
      push_cast
      ring

theorem anc_count_decompose {accs : List Account} (hA : Acyclic accs)
    (hnd : (ids accs).Nodup) {a : Account} (ha : a ∈ accs) (b : Account)
    (hb : b ∈ accs) :
    (if a.id ∈ anc accs b.id then (1 : Nat) else 0) =
      (if b.id = a.id then 1 else 0) +
      (childrenOf accs a.id).countP (fun c => decide (c.id ∈ anc accs b.id)) := by
  by_cases hba : b.id = a.id
  · rw [if_pos (by rw [hba]; exact anc_self accs a.id), if_pos hba]
    have hcz : (childrenOf accs a.id).countP
        (fun c => decide (c.id ∈ anc accs b.id)) = 0 := by
      rw [List.countP_eq_zero]
      intro c hc hcp
      have hcmem : c ∈ accs := List.mem_of_mem_filter hc
      have hcp2 : c.parent_id = some a.id := by
        have h2 := List.of_mem_filter hc
        simpa using h2
      have hcin : c.id ∈ anc accs b.id := of_decide_eq_true hcp
      rw [hba] at hcin
      rcases (mem_ancChain_iff accs (chartFuel accs) a.id c.id).mp hcin with ⟨k, hk, hik⟩
      have hcyc : iterP accs (k + 1) a.id = some a.id := by
        rw [iterP_succ_right, hik]
        show parentOf accs c.id = some a.id
        rw [parentOf_of_mem hnd hcmem]
        exact hcp2
      exact absurd hcyc (hA a.id (k + 1) (by omega))
    rw [hcz]
  · rw [if_neg hba]
    by_cases hmem : a.id ∈ anc accs b.id
    · rw [if_pos hmem]
      have hne : a.id ≠ b.id := fun he => hba he.symm
      rcases anc_step accs (chartFuel accs) b.id a.id hmem hne with ⟨y, hy, hyp⟩
      rcases parentOf_some_acct hyp with ⟨c, hcmem, hcid, hcp⟩
      have hcchild : c ∈ childrenOf accs a.id := by
        unfold childrenOf
        rw [List.mem_filter]
        exact ⟨hcmem, by simp [hcp]⟩
      have hchildnd : (childrenOf accs a.id).Nodup :=
        (List.Nodup.of_map Account.id hnd).filter _
      have hone : (childrenOf accs a.id).countP
          (fun c => decide (c.id ∈ anc accs b.id)) = 1 := by
        apply countP_eq_one_of_unique hchildnd
          (fun c => decide (c.id ∈ anc accs b.id)) hcchild
          (decide_eq_true (show c.id ∈ anc accs b.id by rw [hcid]; exact hy))
        intro c2 hc2 hcp2
        have hc2mem : c2 ∈ accs := List.mem_of_mem_filter hc2
        have hc2par : c2.parent_id = some a.id := by
          have h2 := List.of_mem_filter hc2
          simpa using h2
        exact child_in_anc_unique hA hnd hc2mem hcmem hc2par hcp
          (of_decide_eq_true hcp2) (by rw [hcid]; exact hy)
      rw [hone]
    · rw [if_neg hmem]
      have hcz : (childrenOf accs a.id).countP
          (fun c => decide (c.id ∈ anc accs b.id)) = 0 := by
        rw [List.countP_eq_zero]
        intro c hc hcp
        have hcmem : c ∈ accs := List.mem_of_mem_filter hc
        have hcpar : c.parent_id = some a.id := by
          have h2 := List.of_mem_filter hc
          simpa using h2
        have hcin : c.id ∈ anc accs b.id := of_decide_eq_true hcp
        have hup : a.id ∈ anc accs b.id :=
          anc_closed hA hcin (by rw [parentOf_of_mem hnd hcmem]; exact hcpar)
        exact hmem hup
      rw [hcz]

theorem sum_if_self (accs : List Account) (hnd : (ids accs).Nodup)
    {a : Account} (ha : a ∈ accs) (g : Nat → Int) :
    (accs.map (fun b => if b.id = a.id then g b.id else 0)).sum = g a.id := by
  induction accs with
  | nil => simp at ha
  | cons x rest ih =>
    simp only [ids, List.map_cons, List.nodup_cons] at hnd
    rw [List.map_cons, List.sum_cons]
    rcases List.mem_cons.mp ha with rfl | ha2
    · rw [if_pos rfl]
      have hz : (rest.map (fun b => if b.id = a.id then g b.id else 0)).sum = 0 := by
        apply List.sum_eq_zero
        intro z hz
        rcases List.mem_map.mp hz with ⟨b, hb, hbz⟩
        have hne : b.id ≠ a.id := by
          intro he
          exact hnd.1 (he ▸ List.mem_map.mpr ⟨b, hb, rfl⟩)
        rw [← hbz, if_neg hne]
      rw [hz]
      omega
    · have hne : x.id ≠ a.id := by
        intro he
        exact hnd.1 (he ▸ List.mem_map.mpr ⟨a, ha2, rfl⟩)
      rw [if_neg hne, ih hnd.2 ha2]
      omega

/-- C2: over an acyclic chart of accounts with unique ids, the
rolled-up balance of an account at a date equals its own
(non-rolled-up) balance plus the sum of the rolled-up balances of its
direct children; acyclicity of the parent chain makes this recursive
decomposition well-defined. -/
theorem balance_rollup_decomposition (accs : List Account)
    (txs : List Transaction) (d : Date) (hA : Acyclic accs)
    (hnd : (ids accs).Nodup) {a : Account} (ha : a ∈ accs) :
    balance accs txs a.id d true =
      balance accs txs a.id d false +
      ((childrenOf accs a.id).map (fun c => balance accs txs c.id d true)).sum := by
  show rollupBalance accs txs a.id d =
    ownBalance txs a.id d +
      ((childrenOf accs a.id).map (fun c => rollupBalance accs txs c.id d)).sum
  have hstep1 : rollupBalance accs txs a.id d =
      (accs.map (fun b => if decide (a.id ∈ anc accs b.id) = true
        then ownBalance txs b.id d else 0)).sum := by
    unfold rollupBalance subtreeAccounts
    exact sum_map_filter_if accs (fun b => decide (a.id ∈ anc accs b.id))
      (fun b => ownBalance txs b.id d)
  have hpt : ∀ b ∈ accs,
      (if decide (a.id ∈ anc accs b.id) = true then ownBalance txs b.id d else 0) =
      (if b.id = a.id then ownBalance txs b.id d else 0) +
      ((childrenOf accs a.id).countP
        (fun c => decide (c.id ∈ anc accs b.id)) : Int) * ownBalance txs b.id d := by
    intro b hb
    have hdec := anc_count_decompose hA hnd ha b hb
    by_cases h1 : a.id ∈ anc accs b.id <;> by_cases h2 : b.id = a.id
    · rw [if_pos h1, if_pos h2] at hdec
      have hcnt : (childrenOf accs a.id).countP
          (fun c => decide (c.id ∈ anc accs b.id)) = 0 := by omega
      rw [if_pos (by simp [h1]), if_pos h2, hcnt]
      push_cast
      ring
    · rw [if_pos h1, if_neg h2] at hdec
      have hcnt : (childrenOf accs a.id).countP
          (fun c => decide (c.id ∈ anc accs b.id)) = 1 := by omega
      rw [if_pos (by simp [h1]), if_neg h2, hcnt]
      push_cast
      ring
    · rw [if_neg h1, if_pos h2] at hdec
      exfalso
      omega
    · rw [if_neg h1, if_neg h2] at hdec
      have hcnt : (childrenOf accs a.id).countP
          (fun c => decide (c.id ∈ anc accs b.id)) = 0 := by omega
      rw [if_neg (by simp [h1]), if_neg h2, hcnt]
      push_cast
      ring
  have hstep2 : (accs.map (fun b => if decide (a.id ∈ anc accs b.id) = true
        then ownBalance txs b.id d else 0)).sum =
      (accs.map (fun b => (if b.id = a.id then ownBalance txs b.id d else 0) +
        ((childrenOf accs a.id).countP
          (fun c => decide (c.id ∈ anc accs b.id)) : Int) *
          ownBalance txs b.id d)).sum := by
    rw [List.map_congr_left hpt]
  have hsplit : (accs.map (fun b => (if b.id = a.id then ownBalance txs b.id d else 0) +
        ((childrenOf accs a.id).countP
          (fun c => decide (c.id ∈ anc accs b.id)) : Int) *
          ownBalance txs b.id d)).sum =
      (accs.map (fun b => if b.id = a.id then ownBalance txs b.id d else 0)).sum +
      (accs.map (fun b => ((childrenOf accs a.id).countP
        (fun c => decide (c.id ∈ anc accs b.id)) : Int) *
        ownBalance txs b.id d)).sum := by
    rw [List.sum_map_add]
  have hfirst : (accs.map (fun b => if b.id = a.id
      then ownBalance txs b.id d else 0)).sum = ownBalance txs a.id d :=
    sum_if_self accs hnd ha (fun x => ownBalance txs x d)
  have hsecond : (accs.map (fun b => ((childrenOf accs a.id).countP
        (fun c => decide (c.id ∈ anc accs b.id)) : Int) *
        ownBalance txs b.id d)).sum =
      ((childrenOf accs a.id).map (fun c => rollupBalance accs txs c.id d)).sum := by
    have hinner : ∀ b : Account, ((childrenOf accs a.id).countP
        (fun c => decide (c.id ∈ anc accs b.id)) : Int) * ownBalance txs b.id d =
        ((childrenOf accs a.id).map
          (fun c => if decide (c.id ∈ anc accs b.id) = true
            then ownBalance txs b.id d else 0)).sum := by
      intro b
      exact (sum_if_count (childrenOf accs a.id)
        (fun c => decide (c.id ∈ anc accs b.id)) (ownBalance txs b.id d)).symm
    calc (accs.map (fun b => ((childrenOf accs a.id).countP
          (fun c => decide (c.id ∈ anc accs b.id)) : Int) *
          ownBalance txs b.id d)).sum
        = (accs.map (fun b => ((childrenOf accs a.id).map
            (fun c => if decide (c.id ∈ anc accs b.id) = true
              then ownBalance txs b.id d else 0)).sum)).sum := by
          rw [List.map_congr_left (fun b _ => hinner b)]
      _ = ((childrenOf accs a.id).map (fun c => (accs.map
            (fun b => if decide (c.id ∈ anc accs b.id) = true
              then ownBalance txs b.id d else 0)).sum)).sum :=
          sum_map_comm accs (childrenOf accs a.id)
            (fun b c => if decide (c.id ∈ anc accs b.id) = true
              then ownBalance txs b.id d else 0)
      _ = ((childrenOf accs a.id).map (fun c => rollupBalance accs txs c.id d)).sum := by
          apply congrArg
          apply List.map_congr_left
          intro c _
          unfold rollupBalance subtreeAccounts
          exact (sum_map_filter_if accs (fun b => decide (c.id ∈ anc accs b.id))
            (fun b => ownBalance txs b.id d)).symm
  rw [hstep1, hstep2, hsplit, hfirst, hsecond]

theorem iterP_isSome_of_le {accs : List Account} {k x y : Nat}
    (h : iterP accs k x = some y) : ∀ j ≤ k, ∃ z, iterP accs j x = some z := by
  intro j hj
  have hadd := iterP_add accs j (k - j) x
  rw [Nat.add_sub_cancel' hj, h] at hadd
  cases hji : iterP accs j x with
  | none => rw [hji] at hadd; simp at hadd
  | some z => exact ⟨z, rfl⟩

theorem cycle_min_distinct {accs : List Account} {x k : Nat} (hk : 1 ≤ k)
    (hcyc : iterP accs k x = some x)
    (hmin : ∀ k2, 1 ≤ k2 → iterP accs k2 x = some x → k ≤ k2) :
    ∀ i j, i < k → j < k → iterP accs i x = iterP accs j x → i = j := by
  suffices hs : ∀ i j, i ≤ j → j < k → iterP accs i x = iterP accs j x → i = j by
    intro i j hi hj he
    rcases Nat.le_total i j with h | h
    · exact hs i j h hj he
    · exact (hs j i h hi he.symm).symm
  intro i j hij hj he
  by_contra hne
  have hlt : i < j := by omega
  have h1 := iterP_add accs j (k - j) x
  rw [Nat.add_sub_cancel' (by omega : j ≤ k), hcyc, ← he] at h1
  have h2 := iterP_add accs i (k - j) x
  rw [← h1] at h2
  have hsmall := hmin (i + (k - j)) (by omega) h2
  omega

theorem cycle_bounded {accs : List Account} {x k : Nat} (hk : 1 ≤ k)
    (hcyc : iterP accs k x = some x) :
    ∃ km, 1 ≤ km ∧ km ≤ accs.length ∧ iterP accs km x = some x ∧
      ∀ j, 1 ≤ j → j < km → iterP accs j x ≠ some x := by
  have hex : ∃ k2, 1 ≤ k2 ∧ iterP accs k2 x = some x := ⟨k, hk, hcyc⟩
  have hPm := Nat.find_spec hex
  set km := Nat.find hex with hkm
  have hmin : ∀ k2, 1 ≤ k2 → iterP accs k2 x = some x → km ≤ k2 :=
    fun k2 h1 h2 => Nat.find_min' hex ⟨h1, h2⟩
  have hdist := cycle_min_distinct hPm.1 hPm.2 hmin
  have hval : ∀ j, j < km → ∃ y, iterP accs j x = some y ∧ y ∈ ids accs := by
    intro j hj
    obtain ⟨z, hz⟩ := iterP_isSome_of_le hPm.2 j (by omega)
    refine ⟨z, hz, ?_⟩
    obtain ⟨w, hw⟩ := iterP_isSome_of_le hPm.2 (j + 1) (by omega)
    have hsucc := iterP_succ_right accs j x
    rw [hz, hw] at hsucc
    exact parentOf_mem_ids (show parentOf accs z = some w from hsucc.symm)
  have hbound : km ≤ accs.length := by
    have hLnd : ((List.range km).map (fun j => iterP accs j x)).Nodup := by
      apply List.Nodup.map_on
      · intro j1 hj1 j2 hj2 he
        exact hdist j1 j2 (List.mem_range.mp hj1) (List.mem_range.mp hj2) he
      · exact List.nodup_range km
    have hLsub : (List.range km).map (fun j => iterP accs j x) ⊆
        (ids accs).dedup.map some := by
      intro o ho
      rcases List.mem_map.mp ho with ⟨j, hj, rfl⟩
      obtain ⟨y, hy, hyid⟩ := hval j (List.mem_range.mp hj)
      rw [hy]
      exact List.mem_map.mpr ⟨y, List.mem_dedup.mpr hyid, rfl⟩
    have hsp := hLnd.subperm hLsub
    have hlen1 := hsp.length_le
    have hlen2 := ((ids accs).dedup_sublist).length_le
    simp only [List.length_map, List.length_range] at hlen1
    have hlen3 : (ids accs).length = accs.length := List.length_map accs Account.id
    omega
  refine ⟨km, hPm.1, hbound, hPm.2, ?_⟩
  intro j h1 h2 hj
  have := hmin j h1 hj
  omega

theorem iterP_succ_of_parent {accs : List Account} {z p : Nat}
    (hp : parentOf accs z = some p) (k : Nat) :
    iterP accs (k + 1) z = iterP accs k p := by
  simp only [iterP, hp]

theorem iterP_succ_of_none {accs : List Account} {z : Nat}
    (hp : parentOf accs z = none) (k : Nat) : iterP accs (k + 1) z = none := by
  simp only [iterP, hp]

theorem acyclic_of_check {accs : List Account} (h : acyclicCheck accs = true) :
    Acyclic accs := by
  intro x k hk hcyc
  obtain ⟨km, hkm1, hbound, hkmcyc, hkmmin⟩ := cycle_bounded hk hcyc
  obtain ⟨p, hp⟩ : ∃ p, parentOf accs x = some p := by
    obtain ⟨w, hw⟩ := iterP_isSome_of_le hkmcyc 1 hkm1
    rw [iterP_one] at hw
    exact ⟨w, hw⟩
  have hx : iterP accs (km - 1) p = some x := by
    have hstep : iterP accs km x = iterP accs (km - 1) p := by
      conv_lhs => rw [show km = (km - 1) + 1 from by omega]
      exact iterP_succ_of_parent hp (km - 1)
    rw [← hstep]
    exact hkmcyc
  have hxanc : x ∈ anc accs p :=
    (mem_ancChain_iff accs (chartFuel accs) p x).mpr
      ⟨km - 1, by unfold chartFuel; omega, hx⟩
  obtain ⟨a0, ha0mem, ha0id, ha0par⟩ := parentOf_some_acct hp
  unfold acyclicCheck at h
  rw [List.all_eq_true] at h
  have hc := h a0 ha0mem
  rw [ha0par] at hc
  simp only [Bool.not_eq_true'] at hc
  rw [ha0id] at hc
  have hnc : x ∉ anc accs p := by simpa using hc
  exact hnc hxanc

/-- Witness for C2 at a concrete two-account chart (a root asset
account with one child) and the empty ledger. -/
theorem balance_rollup_decomposition_witness :
    balance [⟨1, "1", "Aset", .asset, none, true⟩,
        ⟨2, "1.1", "Kas", .asset, some 1, true⟩] []
        (⟨1, "1", "Aset", .asset, none, true⟩ : Account).id ⟨2024, 1, 31⟩ true =
      balance [⟨1, "1", "Aset", .asset, none, true⟩,
        ⟨2, "1.1", "Kas", .asset, some 1, true⟩] []
        (⟨1, "1", "Aset", .asset, none, true⟩ : Account).id ⟨2024, 1, 31⟩ false +
      ((childrenOf [⟨1, "1", "Aset", .asset, none, true⟩,
          ⟨2, "1.1", "Kas", .asset, some 1, true⟩]
          (⟨1, "1", "Aset", .asset, none, true⟩ : Account).id).map
        (fun c => balance [⟨1, "1", "Aset", .asset, none, true⟩,
          ⟨2, "1.1", "Kas", .asset, some 1, true⟩] [] c.id ⟨2024, 1, 31⟩ true)).sum :=
  balance_rollup_decomposition
    [⟨1, "1", "Aset", .asset, none, true⟩, ⟨2, "1.1", "Kas", .asset, some 1, true⟩]
    [] ⟨2024, 1, 31⟩ (acyclic_of_check (by decide)) (by decide) (by decide)

theorem parentOf_append {accs : List Account} {a : Account}
    (hfresh : a.id ∉ ids accs) (z : Nat) :
    parentOf (accs ++ [a]) z = if z = a.id then a.parent_id else parentOf accs z := by
  unfold parentOf findAcct
  rw [List.find?_append]
  by_cases hz : z = a.id
  · subst hz
    have hnone : accs.find? (fun b => b.id == a.id) = none := by
      rw [List.find?_eq_none]
      intro b hb hbz
      have hbid : b.id = a.id := by simpa using hbz
      exact hfresh (show a.id ∈ ids accs from by
        unfold ids
        exact List.mem_map.mpr ⟨b, hb, hbid⟩)
    rw [hnone, if_pos rfl]
    simp
  · rw [if_neg hz]
    have hsingle : [a].find? (fun b => b.id == z) = none := by
      rw [List.find?_eq_none]
      intro b hb hbz
      rw [List.mem_singleton.mp hb] at hbz
      have : a.id = z := by simpa using hbz
      exact hz this.symm
    rw [hsingle]
    cases accs.find? (fun b => b.id == z) <;> rfl

theorem findAcct_setParent (accs : List Account) (aid : Nat) (np : Option Nat)
    (z : Nat) :
    findAcct (setParent accs aid np) z =
      (findAcct accs z).map
        (fun b => if b.id = aid then { b with parent_id := np } else b) := by
  induction accs with
  | nil => rfl
  | cons a rest ih =>
    show findAcct ((if a.id = aid then { a with parent_id := np } else a) ::
      setParent rest aid np) z = _
    have hid : (if a.id = aid then { a with parent_id := np } else a).id = a.id := by
      by_cases h : a.id = aid <;> simp [h]
    unfold findAcct
    simp only [List.find?_cons, hid]
    cases hz : (a.id == z) with
    | true => simp
    | false => simpa using ih

theorem parentOf_setParent_ne (accs : List Account) (aid : Nat) (np : Option Nat)
    {z : Nat} (hz : z ≠ aid) :
    parentOf (setParent accs aid np) z = parentOf accs z := by
  unfold parentOf
  rw [findAcct_setParent]
  cases hf : findAcct accs z with
  | none => rfl
  | some b =>
    have hbid : b.id = z := by
      have h2 := List.find?_some hf
      simpa using h2
    have hne : ¬ b.id = aid := by rw [hbid]; exact hz
    simp [hne]

theorem parentOf_setParent_eq (accs : List Account) (aid : Nat) (np : Option Nat)
    {a00 : Account} (hf : findAcct accs aid = some a00) :
    parentOf (setParent accs aid np) aid = np := by
  unfold parentOf
  rw [findAcct_setParent, hf]
  have hbid : a00.id = aid := by
    have h2 := List.find?_some hf
    simpa using h2
  simp [hbid]

theorem ids_setParent (accs : List Account) (aid : Nat) (np : Option Nat) :
    ids (setParent accs aid np) = ids accs := by
  unfold ids setParent
  rw [List.map_map]
  apply List.map_congr_left
  intro b _
  by_cases h : b.id = aid <;> simp [h]

theorem setParent_length (accs : List Account) (aid : Nat) (np : Option Nat) :
    (setParent accs aid np).length = accs.length := by
  unfold setParent
  exact List.length_map accs _

theorem iterP_congr_of_avoid {accs1 accs2 : List Account} {b : Nat}
    (hpar : ∀ z, z ≠ b → parentOf accs2 z = parentOf accs1 z) :
    ∀ (k z : Nat), (∀ j, j < k → ∀ w, iterP accs2 j z = some w → w ≠ b) →
      iterP accs2 k z = iterP accs1 k z := by
  intro k
  induction k with
  | zero => intro z _; rfl
  | succ k ih =>
    intro z havoid
    have hz : z ≠ b := havoid 0 (by omega) z rfl
    have hp2 : parentOf accs2 z = parentOf accs1 z := hpar z hz
    cases hp : parentOf accs1 z with
    | none => rw [iterP_succ_of_none (hp2.trans hp), iterP_succ_of_none hp]
    | some p =>
      rw [iterP_succ_of_parent (hp2.trans hp), iterP_succ_of_parent hp]
      apply ih
      intro j hj w hw
      apply havoid (j + 1) (by omega)
      rw [iterP_succ_of_parent (hp2.trans hp)]
      exact hw

theorem cycle_rotate {accs : List Account} {x y : Nat} {km j : Nat}
    (hj : j ≤ km) (hcyc : iterP accs km x = some x)
    (hjx : iterP accs j x = some y) : iterP accs km y = some y := by
  have h1 := iterP_add accs j (km - j) x
  rw [Nat.add_sub_cancel' hj, hcyc, hjx] at h1
  have h1b : iterP accs (km - j) y = some x := by simpa using h1.symm
  have h2b : iterP accs ((km - j) + j) y = some y := by
    rw [iterP_add, h1b]
    simpa using hjx
  rw [show km = (km - j) + j from by omega]
  exact h2b

theorem insert_acyclic {accs : List Account} {a : Account} (hA : Acyclic accs)
    (hfresh : a.id ∉ ids accs)
    (hcheck : cycleAt (accs ++ [a]) a.id = false) :
    Acyclic (accs ++ [a]) := by
  intro x k hk hcyc
  obtain ⟨km, hkm1, hbound, hkmcyc, hkmmin⟩ := cycle_bounded hk hcyc
  by_cases hthrough : ∃ j ≤ km, iterP (accs ++ [a]) j x = some a.id
  · obtain ⟨j, hj, hjx⟩ := hthrough
    have hrot : iterP (accs ++ [a]) km a.id = some a.id :=
      cycle_rotate hj hkmcyc hjx
    obtain ⟨km2, h2a, h2b, h2c, h2min⟩ := cycle_bounded hkm1 hrot
    have hpar : parentOf (accs ++ [a]) a.id = a.parent_id := by
      rw [parentOf_append hfresh]
      simp
    cases hap : a.parent_id with
    | none =>
      have hnone : iterP (accs ++ [a]) km2 a.id = none := by
        conv_lhs => rw [show km2 = (km2 - 1) + 1 from by omega]
        exact iterP_succ_of_none (by rw [hpar, hap]) (km2 - 1)
      rw [h2c] at hnone
      exact Option.noConfusion hnone
    | some p =>
      have hdet : iterP (accs ++ [a]) (km2 - 1) p = some a.id := by
        have hstep : iterP (accs ++ [a]) km2 a.id =
            iterP (accs ++ [a]) (km2 - 1) p := by
          conv_lhs => rw [show km2 = (km2 - 1) + 1 from by omega]
          exact iterP_succ_of_parent (by rw [hpar, hap]) (km2 - 1)
        rw [← hstep]
        exact h2c
      have hanc : a.id ∈ anc (accs ++ [a]) p :=
        (mem_ancChain_iff (accs ++ [a]) (chartFuel (accs ++ [a])) p a.id).mpr
          ⟨km2 - 1, by unfold chartFuel; omega, hdet⟩
      unfold cycleAt at hcheck
      rw [hpar, hap] at hcheck
      simp only [Bool.not_eq_true'] at hcheck
      have hnc : a.id ∉ anc (accs ++ [a]) p := by simpa using hcheck
      exact hnc hanc
  · push_neg at hthrough
    have htrans : iterP (accs ++ [a]) km x = iterP accs km x := by
      apply iterP_congr_of_avoid (b := a.id)
      · intro z hz
        rw [parentOf_append hfresh z, if_neg hz]
      · intro j hjlt w hw heq
        exact hthrough j (by omega) (heq ▸ hw)
    rw [htrans] at hkmcyc
    exact hA x km hkm1 hkmcyc

theorem reparent_acyclic {accs : List Account} {aid : Nat} {np : Option Nat}
    {a00 : Account} (hA : Acyclic accs) (hf : findAcct accs aid = some a00)
    (hsafe : ∀ p, np = some p → aid ∉ anc accs p) :
    Acyclic (setParent accs aid np) := by
  intro x k hk hcyc
  obtain ⟨km, hkm1, hbound, hkmcyc, hkmmin⟩ := cycle_bounded hk hcyc
  by_cases hthrough : ∃ j ≤ km, iterP (setParent accs aid np) j x = some aid
  · obtain ⟨j, hj, hjx⟩ := hthrough
    have hrot : iterP (setParent accs aid np) km aid = some aid :=
      cycle_rotate hj hkmcyc hjx
    obtain ⟨km2, h2a, h2b, h2c, h2min⟩ := cycle_bounded hkm1 hrot
    have hpar : parentOf (setParent accs aid np) aid = np :=
      parentOf_setParent_eq accs aid np hf
    cases hap : np with
    | none =>
      have hnone : iterP (setParent accs aid np) km2 aid = none := by
        conv_lhs => rw [show km2 = (km2 - 1) + 1 from by omega]
        exact iterP_succ_of_none (hpar.trans hap) (km2 - 1)
      rw [h2c] at hnone
      exact Option.noConfusion hnone
    | some p =>
      have hdet2 : iterP (setParent accs aid np) (km2 - 1) p = some aid := by
        have hstep : iterP (setParent accs aid np) km2 aid =
            iterP (setParent accs aid np) (km2 - 1) p := by
          conv_lhs => rw [show km2 = (km2 - 1) + 1 from by omega]
          exact iterP_succ_of_parent (hpar.trans hap) (km2 - 1)
        rw [← hstep]
        exact h2c
      have hdet : iterP accs (km2 - 1) p = some aid := by
        rw [← iterP_congr_of_avoid (b := aid)
          (fun z hz => parentOf_setParent_ne accs aid np hz) (km2 - 1) p ?havoid]
        · exact hdet2
        case havoid =>
          intro jj hjj w hw heq
          rw [heq] at hw
          have hnext : iterP (setParent accs aid np) (jj + 1) aid = some aid := by
            rw [iterP_succ_of_parent (hpar.trans hap)]
            exact hw
          exact h2min (jj + 1) (by omega) (by omega) hnext
      have hlen := setParent_length accs aid np
      have hanc : aid ∈ anc accs p :=
        (mem_ancChain_iff accs (chartFuel accs) p aid).mpr
          ⟨km2 - 1, by unfold chartFuel; omega, hdet⟩
      exact hsafe p hap hanc
  · push_neg at hthrough
    have htrans : iterP (setParent accs aid np) km x = iterP accs km x := by
      apply iterP_congr_of_avoid (b := aid)
      · intro z hz
        exact parentOf_setParent_ne accs aid np hz
      · intro j hjlt w hw heq
        exact hthrough j (by omega) (heq ▸ hw)
    rw [htrans] at hkmcyc
    exact hA x km hkm1 hkmcyc

theorem insertAccount_ok_inv {accs accs2 : List Account} {a : Account}
    (h : insertAccount accs a = .ok accs2) :
    accs2 = accs ++ [a] ∧ a.id ∉ ids accs ∧ cycleAt (accs ++ [a]) a.id = false := by
  unfold insertAccount at h
  by_cases hdup : (ids accs).contains a.id = true
  · rw [if_pos hdup] at h
    exact Except.noConfusion h
  · rw [if_neg hdup] at h
    have hfresh : a.id ∉ ids accs := by simpa using hdup
    cases hap : a.parent_id with
    | none =>
      rw [hap] at h
      dsimp only at h
      refine ⟨(Except.ok.inj h).symm, hfresh, ?_⟩
      unfold cycleAt
      rw [parentOf_append hfresh, if_pos rfl, hap]
    | some p =>
      rw [hap] at h
      dsimp only at h
      by_cases hp : (ids accs).contains p = true
      · rw [if_pos hp] at h
        by_cases hcy : cycleAt (accs ++ [a]) a.id = true
        · rw [if_pos hcy] at h
          exact Except.noConfusion h
        · rw [if_neg hcy] at h
          exact ⟨(Except.ok.inj h).symm, hfresh, by simpa using hcy⟩
      · rw [if_neg hp] at h
        exact Except.noConfusion h

theorem reparentAccount_ok_inv {accs accs2 : List Account} {aid : Nat}
    {np : Option Nat} (h : reparentAccount accs aid np = .ok accs2) :
    (∃ a00, findAcct accs aid = some a00) ∧
      accs2 = setParent accs aid np ∧
      ∀ p, np = some p → aid ∉ anc accs p := by
  unfold reparentAccount at h
  cases hf : findAcct accs aid with
  | none =>
    rw [hf] at h
    exact Except.noConfusion h
  | some a00 =>
    rw [hf] at h
    dsimp only at h
    rcases np with _ | p0
    · dsimp only at h
      refine ⟨⟨a00, rfl⟩, (Except.ok.inj h).symm, ?_⟩
      intro p hp
      exact Option.noConfusion hp
    · dsimp only at h
      by_cases hc : (ids accs).contains p0 = true
      · rw [if_pos hc] at h
        by_cases hcy : (anc accs p0).contains aid = true
        · rw [if_pos hcy] at h
          exact Except.noConfusion h
        · rw [if_neg hcy] at h
          refine ⟨⟨a00, rfl⟩, (Except.ok.inj h).symm, ?_⟩
          intro p hp
          have hpp : p = p0 := (Option.some.inj hp).symm
          subst hpp
          simpa using hcy
      · rw [if_neg hc] at h
        exact Except.noConfusion h

theorem reachableChart_invariant {accs : List Account} (h : ReachableChart accs) :
    Acyclic accs ∧ (ids accs).Nodup := by
  induction h with
  | empty =>
    refine ⟨?_, by simp [ids]⟩
    intro x k hk hcyc
    cases k with
    | zero => omega
    | succ k =>
      rw [iterP_succ_of_none (show parentOf [] x = none from rfl)] at hcyc
      exact Option.noConfusion hcyc
  | @insert accs0 accs2 a hr hok ih =>
    obtain ⟨heq, hfresh, hcheck⟩ := insertAccount_ok_inv hok
    subst heq
    refine ⟨insert_acyclic ih.1 hfresh hcheck, ?_⟩
    unfold ids
    rw [List.map_append]
    refine List.Nodup.append ih.2 (by simp) ?_
    intro x hx hy
    have hxa : x = a.id := by simpa using hy
    exact hfresh (show a.id ∈ ids accs0 from by
      unfold ids
      exact hxa ▸ hx)
  | @reparent accs0 accs2 aid p hr hok ih =>
    obtain ⟨⟨a00, hf⟩, heq, hsafe⟩ := reparentAccount_ok_inv hok
    subst heq
    refine ⟨reparent_acyclic ih.1 hf hsafe, ?_⟩
    rw [ids_setParent]
    exact ih.2

/-- C8: the Chart-of-Accounts Index rejects any insertion or reparenting
that would introduce a cycle in the parent chain with a
`CyclicHierarchy` error; a rejected operation leaves the index state
completely unchanged; and every reachable index state has distinct
account ids and an acyclic (hence finite) parent chain for every
account. -/
theorem chart_cycle_rejection :
    (∀ (accs : List Account) (a : Account) (e : ChartError),
        insertAccount accs a = .error e → chartInsert accs a = (accs, some e)) ∧
    (∀ (accs : List Account) (aid : Nat) (np : Option Nat) (e : ChartError),
        reparentAccount accs aid np = .error e →
        chartReparent accs aid np = (accs, some e)) ∧
    (∀ (accs : List Account) (a : Account), Acyclic accs → a.id ∉ ids accs →
        (∀ p, a.parent_id = some p → p ∈ ids accs) →
        ¬ Acyclic (accs ++ [a]) →
        insertAccount accs a = .error .cyclicHierarchy) ∧
    (∀ (accs : List Account) (aid p : Nat) (a00 : Account), Acyclic accs →
        findAcct accs aid = some a00 → p ∈ ids accs →
        ¬ Acyclic (setParent accs aid (some p)) →
        reparentAccount accs aid (some p) = .error .cyclicHierarchy) ∧
    (∀ accs : List Account, ReachableChart accs →
        Acyclic accs ∧ (ids accs).Nodup) := by
  refine ⟨?_, ?_, ?_, ?_, fun accs h => reachableChart_invariant h⟩
  · intro accs a e h
    unfold chartInsert
    rw [h]
  · intro accs aid np e h
    unfold chartReparent
    rw [h]
  · intro accs a hA hfresh hpex hnot
    unfold insertAccount
    rw [if_neg (by simpa using hfresh)]
    cases hap : a.parent_id with
    | none =>
      exfalso
      apply hnot
      apply insert_acyclic hA hfresh
      unfold cycleAt
      rw [parentOf_append hfresh, if_pos rfl, hap]
    | some p =>
      dsimp only
      rw [if_pos (by simpa using hpex p hap)]
      by_cases hcy : cycleAt (accs ++ [a]) a.id = true
      · rw [if_pos hcy]
      · exfalso
        exact hnot (insert_acyclic hA hfresh (by simpa using hcy))
  · intro accs aid p a00 hA hf hp hnot
    unfold reparentAccount
    rw [hf]
    dsimp only
    rw [if_pos (by simpa using hp)]
    by_cases hcy : (anc accs p).contains aid = true
    · rw [if_pos hcy]
    · exfalso
      apply hnot
      apply reparent_acyclic hA hf
      intro q hq
      have hqp : q = p := (Option.some.inj hq).symm
      subst hqp
      simpa using hcy

theorem chart_cycle_rejection_witness :
    chartReparent
        [⟨1, "1", "Aset", AccountType.asset, none, true⟩,
         ⟨2, "1.1", "Kas", AccountType.asset, some 1, true⟩] 1 (some 2) =
      ([⟨1, "1", "Aset", AccountType.asset, none, true⟩,
        ⟨2, "1.1", "Kas", AccountType.asset, some 1, true⟩],
       some ChartError.cyclicHierarchy) ∧
    Acyclic [⟨1, "1", "Aset", AccountType.asset, none, true⟩] ∧
    (ids [⟨1, "1", "Aset", AccountType.asset, none, true⟩]).Nodup := by
  refine ⟨?_, ?_⟩
  · exact chart_cycle_rejection.2.1
      [⟨1, "1", "Aset", AccountType.asset, none, true⟩,
       ⟨2, "1.1", "Kas", AccountType.asset, some 1, true⟩] 1 (some 2)
      ChartError.cyclicHierarchy (by rfl)
  · exact chart_cycle_rejection.2.2.2.2
      [⟨1, "1", "Aset", AccountType.asset, none, true⟩]
      (@ReachableChart.insert []
        [⟨1, "1", "Aset", AccountType.asset, none, true⟩]
        ⟨1, "1", "Aset", AccountType.asset, none, true⟩
        ReachableChart.empty (by rfl))

end IndoLedger
